import Mathlib

/-
Formal model of the minipack module bundler (src/minipack.js).

The bundler consists of three functions and one piece of global state:
  * a module-level counter `ID` (line 26), threaded here explicitly as a `Nat`;
  * `createAsset(filename)` (lines 29-67): reads a file, extracts its import
    strings, transforms its code, allocates a fresh id;
  * `createGraph(entry)` (lines 71-102): BFS worklist over a growing queue,
    resolving each relative import against the importer's directory, building a
    child asset unconditionally for every dependency occurrence, and recording
    `mapping[relativePath] = child.id` (a JS object assignment: last write to a
    key wins, first-insertion key order is kept);
  * `bundle(graph)` (lines 108-160): emits the module table and the loader text.

External collaborators (fs.readFileSync, babylon.parse + babel-traverse
dependency collection, babel transformFromAst, path.dirname / path.join) are
modelled as components of an `Env` record: `read` returns `none` exactly when
the file cannot be read (ReadError), `parseDeps` returns the ordered list of
ImportDeclaration source strings of a file's content and `none` on a parse
failure (ParseError), `transform` is the code transform, and `dirname` / `join`
are the path operations.  JS exceptions are modelled with `Except`.

The runtime semantics of the emitted loader (the fixed template in `bundle`)
is embedded as a fuel-indexed interpreter: a module body is modelled, per the
common-module calling convention the transform is assumed to produce (spec
sections 4.4 and 9, code-shape assumption), by the ordered list of names it
passes to its local import function; `module = { exports : {} }` allocations
are tracked by a freshness counter, and every body execution is appended to a
log.
-/

namespace Minipack

/-- One discovered module, as returned by `createAsset` and mutated once by
`createGraph` (which attaches `mapping`).  `mapping := []` stands for the
absent/empty mapping of a freshly created asset. -/
structure Asset where
  id : Nat
  filename : String
  dependencies : List String
  code : String
  mapping : List (String × Nat)
deriving Repr, DecidableEq

def defaultAsset : Asset :=
  { id := 0, filename := "", dependencies := [], code := "", mapping := [] }

/-- Indexing into an asset list (total, with a default). -/
def nth (q : List Asset) (j : Nat) : Asset :=
  q.getD j defaultAsset

/-- The external collaborators of the bundler. -/
structure Env where
  read : String → Option String
  parseDeps : String → Option (List String)
  transform : String → String
  dirname : String → String
  join : String → String → String

/-- Errors thrown by the collaborators: `fs.readFileSync` failure and
`babylon.parse` failure. -/
inductive BuildError where
  | readError (path : String)
  | parseError (path : String)
deriving Repr, DecidableEq

/-- JS object property assignment `obj[key] = v` on a string-keyed object:
an existing key keeps its position and gets the new value, a new key is
appended (JS insertion order; import specifiers are modelled as
non-integer-like property keys). -/
def insertAssoc : List (String × Nat) → String → Nat → List (String × Nat)
  | [], key, v => [(key, v)]
  | (k, w) :: rest, key, v =>
    if k = key then (k, v) :: rest else (k, w) :: insertAssoc rest key v

/-- JS object property read `obj[key]` (`none` = undefined). -/
def lookupAssoc : List (String × Nat) → String → Option Nat
  | [], _ => none
  | (k, w) :: rest, key => if k = key then some w else lookupAssoc rest key

/-- Index of the last occurrence of `key` in a list of strings. -/
def lastIdxOf : List String → String → Option Nat
  | [], _ => none
  | rel :: rest, key =>
    match lastIdxOf rest key with
    | some t => some (t + 1)
    | none => if rel = key then some 0 else none

/-- The mapping object accumulated by the `forEach` in `createGraph`
when the children of one importer receive the consecutive ids
`K, K+1, ...` in dependency order, starting from accumulator `mp`. -/
def mkMapFrom (mp : List (String × Nat)) (K : Nat) : List String → List (String × Nat)
  | [] => mp
  | rel :: rest => mkMapFrom (insertAssoc mp rel K) (K + 1) rest

def mkMapping (K : Nat) (deps : List String) : List (String × Nat) :=
  mkMapFrom [] K deps

/-- `createAsset(filename)` (src/minipack.js lines 29-67): read the file
(ReadError on failure), parse it and collect the ImportDeclaration sources in
order (ParseError on failure), allocate `const id = ID++`, transform the code,
and return the asset (no `mapping` field yet). `ID` is the value of the global
counter before the call; the second component is its value after. -/
def createAsset (env : Env) (filename : String) (ID : Nat) :
    Except BuildError (Asset × Nat) :=
  match env.read filename with
  | none => .error (.readError filename)
  | some content =>
    match env.parseDeps content with
    | none => .error (.parseError filename)
    | some dependencies =>
      .ok ({ id := ID, filename := filename, dependencies := dependencies,
             code := env.transform content, mapping := [] }, ID + 1)

/-- The `asset.dependencies.forEach` body in `createGraph` (lines 86-97):
for each relative path in order, resolve it against the importer's directory,
build a child asset unconditionally, record its id in the importer's mapping,
and push it onto the queue (`children` accumulates the pushed assets in
order). -/
def expandAll (env : Env) (dirname : String) :
    List String → List (String × Nat) → List Asset → Nat →
    Except BuildError (List (String × Nat) × List Asset × Nat)
  | [], mapping, children, ID => .ok (mapping, children, ID)
  | relativePath :: rest, mapping, children, ID =>
    match createAsset env (env.join dirname relativePath) ID with
    | .error e => .error e
    | .ok (child, ID2) =>
      expandAll env dirname rest (insertAssoc mapping relativePath child.id)
        (children ++ [child]) ID2

/-- The `for (const asset of queue)` loop of `createGraph` (lines 79-98).
`done` holds the queue entries already expanded (their `mapping` attached),
`todo` the entries not yet reached by the iteration cursor.  The loop is
fuel-indexed because a cyclic import graph makes it run forever; `.ok none`
means the fuel ran out while the JS loop would still be running. -/
def graphLoop (env : Env) (fuel : Nat) (done todo : List Asset) (ID : Nat) :
    Except BuildError (Option (List Asset × Nat)) :=
  match todo with
  | [] => .ok (some (done, ID))
  | asset :: rest =>
    match fuel with
    | 0 => .ok none
    | fuel + 1 =>
      match expandAll env (env.dirname asset.filename) asset.dependencies [] [] ID with
      | .error e => .error e
      | .ok (mapping, children, ID2) =>
        graphLoop env fuel (done ++ [{ asset with mapping := mapping }])
          (rest ++ children) ID2

/-- `createGraph(entry)` (lines 71-102).  `ID` is the value of the process-wide
counter (line 26) when the call starts: the script's first run starts at 0, a
later run in the same process starts wherever the previous run left it. -/
def createGraph (env : Env) (entry : String) (fuel : Nat) (ID : Nat) :
    Except BuildError (Option (List Asset × Nat)) :=
  match createAsset env entry ID with
  | .error e => .error e
  | .ok (mainAsset, ID2) => graphLoop env fuel [] [mainAsset] ID2

/-- `JSON.stringify` of the mapping object: string keys to integer values,
in property order. -/
def jsonStringify (m : List (String × Nat)) : String :=
  "\x7b" ++ String.intercalate "," (m.map (fun kv => "\"" ++ kv.1 ++ "\":" ++ toString kv.2)) ++ "\x7d"

/-- One module-table entry, the template-literal appended for each `mod` in
`bundle` (lines 119-124): keyed by the id, a two-element array of the wrapped
code and the stringified mapping. -/
def moduleEntry (mod : Asset) : String :=
  toString mod.id ++ ": [\n      function (require, module, exports) \x7b\n        " ++ mod.code ++ "\n      \x7d,\n      " ++ jsonStringify mod.mapping ++ ",\n    ],"

/-- The loader text before the module table (lines 139-156 up to the opening
brace of the IIFE argument). -/
def loaderOpen : String :=
  "\n    (function(modules) \x7b\n      function require(id) \x7b\n        const [fn, mapping] = modules[id];\n\n        function localRequire(name) \x7b\n          return require(mapping[name]);\n        \x7d\n\n        const module = \x7b exports : \x7b\x7d \x7d;\n\n        fn(localRequire, module, module.exports);\n\n        return module.exports;\n      \x7d\n\n      require(0);\n    \x7d)(\x7b"

/-- The loader text after the module table. -/
def loaderClose : String :=
  "\x7d)\n  "

/-- `bundle(graph)` (lines 108-160): fold the table entries into `modules`
with `+=`, then splice into the result template. -/
def bundle (graph : List Asset) : String :=
  let modules := graph.foldl (fun acc mod => acc ++ moduleEntry mod) ""
  loaderOpen ++ modules ++ loaderClose

/-- The module table text: the entries of the graph's assets concatenated in
graph order. -/
def tableText (graph : List Asset) : String :=
  (graph.map moduleEntry).foldr (fun a b => a ++ b) ""

/-- The top-level script (lines 162-166): build the graph (global `ID`
starting at 0 in a fresh process), then emit the bundle.  A thrown error
propagates; no bundle text is produced.  `.ok none` = out of fuel. -/
def runScript (env : Env) (entry : String) (fuel : Nat) :
    Except BuildError (Option String) :=
  match createGraph env entry fuel 0 with
  | .error e => .error e
  | .ok none => .ok none
  | .ok (some (graph, _)) => .ok (some (bundle graph))

/-- State of the emitted loader's runtime: `fresh` counts the
`module = \x7b exports : \x7b\x7d \x7d` allocations performed so far (each
allocation's tag is the counter value at that moment), `log` records the ids
whose wrapped function body has been entered, in order. -/
structure LoaderState where
  fresh : Nat
  log : List Nat
deriving Repr, DecidableEq

/-- Executing one wrapped module body under the common-module convention: the
body calls its local import function (`localRequire`) on each of its import
names in order.  `localRequire(name)` looks `name` up in the module's mapping
(undefined lookup aborts, as `require(undefined)` throws) and recursively
requires the resolved id via `req`. -/
def bodyRun (req : Nat → LoaderState → Option (Nat × LoaderState))
    (mapping : List (String × Nat)) :
    List String → LoaderState → Option LoaderState
  | [], st => some st
  | name :: rest, st =>
    match lookupAssoc mapping name with
    | none => none
    | some cid =>
      match req cid st with
      | none => none
      | some (_, st2) => bodyRun req mapping rest st2

/-- The loader's `require(id)` (lines 141-153): look the id up in the table
(a missing entry aborts, as destructuring undefined throws), allocate a fresh
`module = \x7b exports : \x7b\x7d \x7d`, run the wrapped body with the
local import function, and return `module.exports` (the fresh tag).
There is no cache of already-computed exports anywhere in the state.  Fuel
bounds the recursion depth; `none` also stands for a run that would not
terminate. -/
def requireRun (tbl : Nat → Option (List String × List (String × Nat))) :
    Nat → Nat → LoaderState → Option (Nat × LoaderState)
  | 0, _, _ => none
  | fuel + 1, id, st =>
    match tbl id with
    | none => none
    | some entry =>
      match bodyRun (requireRun tbl fuel) entry.2 entry.1
          { fresh := st.fresh + 1, log := st.log ++ [id] } with
      | none => none
      | some st2 => some (st.fresh, st2)

/-- The module table the bundle text denotes: the object literal keyed by each
asset's id, holding the behavior of its wrapped code (its ordered import
names, per the common-module convention) and its mapping. -/
def tableOf (graph : List Asset) : Nat → Option (List String × List (String × Nat)) :=
  fun i => (graph.find? (fun a => a.id == i)).map (fun a => (a.dependencies, a.mapping))

/-- Number of dependency occurrences of the first `i` queue entries, plus one
(the entry module): the queue position where the children of entry `i` start. -/
def cpos (q : List Asset) (i : Nat) : Nat :=
  1 + ((q.take i).map (fun a => a.dependencies.length)).sum

/-- The asset's recorded fields agree with the collaborators at its path:
its content is readable, its dependency list is what the parser extracts, its
code is the transform of the content. -/
def AssetWF (env : Env) (a : Asset) : Prop :=
  ∃ c, env.read a.filename = some c ∧ env.parseDeps c = some a.dependencies ∧
    a.code = env.transform c

/-- Invariant of the `createGraph` worklist: `q` is the queue, `d` the number
of entries the iteration cursor has passed (their mapping is attached). -/
structure GraphShape (env : Env) (entry : String) (ID0 : Nat)
    (q : List Asset) (d : Nat) : Prop where
  d_le : d ≤ q.length
  nonempty : 0 < q.length
  entry_file : (nth q 0).filename = entry
  ids : ∀ j, j < q.length → (nth q j).id = ID0 + j
  wf : ∀ j, j < q.length → AssetWF env (nth q j)
  unmapped : ∀ j, d ≤ j → j < q.length → (nth q j).mapping = []
  mapped : ∀ i, i < d →
    (nth q i).mapping = mkMapping (ID0 + cpos q i) (nth q i).dependencies
  total : q.length = cpos q d
  pos_lt : ∀ i, i < d → i < cpos q i
  child : ∀ i, i < d → ∀ t, t < (nth q i).dependencies.length →
    cpos q i + t < q.length ∧
    (nth q (cpos q i + t)).filename =
      env.join (env.dirname (nth q i).filename) ((nth q i).dependencies.getD t "")

/-- The demand-driven traversal order of the bundle run over a completed
graph: position `i` first (its body is entered), then, for each dependency
occurrence `t` in order, the traversal of the child at position
`cpos g i + t`.  The guard makes the recursion well-founded; on graphs
satisfying `GraphShape` it is always taken. -/
def preTrav (g : List Asset) (i : Nat) : List Nat :=
  i :: ((List.range ((nth g i).dependencies.length)).map
    (fun t =>
      if _h : i < cpos g i + t ∧ cpos g i + t < g.length then preTrav g (cpos g i + t)
      else [])).flatten
termination_by g.length - i
decreasing_by simp_wf; omega

/-- The importer position whose child interval contains queue position `j`. -/
def parentOf (g : List Asset) (j : Nat) : Nat :=
  ((List.range g.length).find? (fun i => decide (cpos g i ≤ j ∧ j < cpos g (i + 1)))).getD 0

/-- The chain of iterated importers above position `j` (fuel-indexed; fuel `j`
suffices since an importer's position is smaller than its child's). -/
def ancChain (g : List Asset) : Nat → Nat → List Nat
  | 0, j => [j]
  | fuel + 1, j => if j = 0 then [0] else j :: ancChain g fuel (parentOf g j)

/-- Position `i` is `j` or an iterated importer of `j`. -/
def Anc (g : List Asset) (i j : Nat) : Prop :=
  i ∈ ancChain g j j

instance (g : List Asset) (i j : Nat) : Decidable (Anc g i j) :=
  inferInstanceAs (Decidable (i ∈ ancChain g j j))

/-- The dependency import strings of a file as the collaborators report them
(empty when unreadable or unparseable). -/
def depsOfF (env : Env) (p : String) : List String :=
  match env.read p with
  | none => []
  | some c => (env.parseDeps c).getD []

/-- One import edge: `q` is the resolution of one of `p`'s import strings. -/
def DepStep (env : Env) (p q : String) : Prop :=
  ∃ rel ∈ depsOfF env p, q = env.join (env.dirname p) rel

/-- `p` is reachable from the entry file along import edges. -/
def Reach (env : Env) (entry p : String) : Prop :=
  Relation.ReflTransGen (DepStep env) entry p

/-- Upper bound on the size of the dependency unfolding tree of `p`, when
every import chain from `p` has length at most the fuel. -/
def sizeBound (env : Env) : Nat → String → Nat
  | 0, _ => 1
  | n + 1, p =>
    1 + ((depsOfF env p).map (fun rel => sizeBound env n (env.join (env.dirname p) rel))).sum

/-- Example filesystem: a single entry file with no imports. -/
def envLeaf : Env :=
  { read := fun p => if p = "e" then some "E" else none,
    parseDeps := fun c => if c = "E" then some [] else none,
    transform := fun c => c,
    dirname := fun _ => "",
    join := fun _ rel => rel }

/-- Example filesystem: a diamond — the entry imports `a` and `b`, and both
`a` and `b` import the same file `c` (path resolution is by plain name). -/
def envA : Env :=
  { read := fun p =>
      if p = "e" then some "E" else if p = "a" then some "A"
      else if p = "b" then some "B" else if p = "c" then some "C" else none,
    parseDeps := fun c =>
      if c = "E" then some ["a", "b"] else if c = "A" then some ["c"]
      else if c = "B" then some ["c"] else if c = "C" then some [] else none,
    transform := fun c => c,
    dirname := fun _ => "",
    join := fun _ rel => rel }

/-- Example filesystem: the entry file imports `a` twice. -/
def envDup : Env :=
  { read := fun p => if p = "e" then some "E" else if p = "a" then some "A" else none,
    parseDeps := fun c => if c = "E" then some ["a", "a"] else if c = "A" then some [] else none,
    transform := fun c => c,
    dirname := fun _ => "",
    join := fun _ rel => rel }

/-- Example filesystem: every path readable, no file has imports. -/
def envAll : Env :=
  { read := fun _ => some "C",
    parseDeps := fun _ => some [],
    transform := fun c => c,
    dirname := fun _ => "",
    join := fun _ rel => rel }

/-- Example filesystem: nothing is readable. -/
def envNone : Env :=
  { read := fun _ => none,
    parseDeps := fun _ => none,
    transform := fun c => c,
    dirname := fun _ => "",
    join := fun _ rel => rel }

/-- The graph `createGraph envDup "e"` produces. -/
def gDup : List Asset :=
  [{ id := 0, filename := "e", dependencies := ["a", "a"], code := "E", mapping := [("a", 2)] },
   { id := 1, filename := "a", dependencies := [], code := "A", mapping := [] },
   { id := 2, filename := "a", dependencies := [], code := "A", mapping := [] }]

/-- The graph `createGraph envA "e"` produces. -/
def gA : List Asset :=
  [{ id := 0, filename := "e", dependencies := ["a", "b"], code := "E", mapping := [("a", 1), ("b", 2)] },
   { id := 1, filename := "a", dependencies := ["c"], code := "A", mapping := [("c", 3)] },
   { id := 2, filename := "b", dependencies := ["c"], code := "B", mapping := [("c", 4)] },
   { id := 3, filename := "c", dependencies := [], code := "C", mapping := [] },
   { id := 4, filename := "c", dependencies := [], code := "C", mapping := [] }]

/-- The one-asset graph `createGraph envLeaf "e"` produces. -/
def gLeaf : List Asset :=
  [{ id := 0, filename := "e", dependencies := [], code := "E", mapping := [] }]

/-! ### Association-list and mapping lemmas -/

theorem lookupAssoc_insertAssoc (m : List (String × Nat)) (key k : String) (v : Nat) :
    lookupAssoc (insertAssoc m key v) k = if k = key then some v else lookupAssoc m k := by
  induction m with
  | nil =>
    simp only [insertAssoc, lookupAssoc]
    by_cases h : k = key
    · simp [h]
    · rw [if_neg (fun h' : key = k => h h'.symm), if_neg h]
  | cons kv rest ih =>
    obtain ⟨k0, v0⟩ := kv
    by_cases h0 : k0 = key <;> by_cases h1 : k0 = k <;> by_cases h2 : k = key <;>
      simp_all [insertAssoc, lookupAssoc]

theorem lastIdxOf_eq_none (deps : List String) (key : String) :
    lastIdxOf deps key = none ↔ key ∉ deps := by
  induction deps with
  | nil => simp [lastIdxOf]
  | cons rel rest ih =>
    simp only [lastIdxOf, List.mem_cons]
    cases h : lastIdxOf rest key with
    | some t =>
      have hmem : key ∈ rest := by
        by_contra hmem
        rw [ih.mpr hmem] at h
        cases h
      simp [hmem]
    | none =>
      have hmem := ih.mp h
      by_cases hrel : rel = key
      · subst hrel
        simp
      · have hrel' : ¬ key = rel := fun h' => hrel h'.symm
        simp [hrel, hrel', hmem]

theorem lastIdxOf_lt_length (deps : List String) (key : String) (t : Nat)
    (h : lastIdxOf deps key = some t) : t < deps.length := by
  induction deps generalizing t with
  | nil => simp [lastIdxOf] at h
  | cons rel rest ih =>
    simp only [lastIdxOf] at h
    cases h0 : lastIdxOf rest key with
    | some u =>
      rw [h0] at h
      simp only [Option.some.injEq] at h
      have := ih u h0
      simp only [List.length_cons]
      omega
    | none =>
      rw [h0] at h
      by_cases hrel : rel = key
      · rw [if_pos hrel] at h
        simp only [Option.some.injEq] at h
        subst h
        simp
      · rw [if_neg hrel] at h
        cases h

theorem lastIdxOf_getD (deps : List String) (key : String) (t : Nat)
    (h : lastIdxOf deps key = some t) : deps.getD t "" = key := by
  induction deps generalizing t with
  | nil => simp [lastIdxOf] at h
  | cons rel rest ih =>
    simp only [lastIdxOf] at h
    cases h0 : lastIdxOf rest key with
    | some u =>
      rw [h0] at h
      simp only [Option.some.injEq] at h
      subst h
      simpa using ih u h0
    | none =>
      rw [h0] at h
      by_cases hrel : rel = key
      · rw [if_pos hrel] at h
        simp only [Option.some.injEq] at h
        subst h
        simpa using hrel
      · rw [if_neg hrel] at h
        cases h

theorem lastIdxOf_ge (deps : List String) (key : String) (u : Nat)
    (hu : u < deps.length) (hget : deps.getD u "" = key) :
    ∃ t, lastIdxOf deps key = some t ∧ u ≤ t := by
  induction deps generalizing u with
  | nil => simp at hu
  | cons rel rest ih =>
    cases u with
    | zero =>
      simp only [List.getD_cons_zero] at hget
      subst hget
      cases h0 : lastIdxOf rest rel with
      | some t =>
        refine ⟨t + 1, ?_, by omega⟩
        simp [lastIdxOf, h0]
      | none =>
        refine ⟨0, ?_, le_refl 0⟩
        simp [lastIdxOf, h0]
    | succ u' =>
      simp only [List.length_cons] at hu
      simp only [List.getD_cons_succ] at hget
      obtain ⟨t, ht, hle⟩ := ih u' (by omega) hget
      refine ⟨t + 1, ?_, by omega⟩
      simp [lastIdxOf, ht]

theorem lookupAssoc_mkMapFrom (deps : List String) :
    ∀ (mp : List (String × Nat)) (K : Nat) (k : String),
      lookupAssoc (mkMapFrom mp K deps) k =
        match lastIdxOf deps k with
        | some t => some (K + t)
        | none => lookupAssoc mp k := by
  induction deps with
  | nil => intro mp K k; simp [mkMapFrom, lastIdxOf]
  | cons rel rest ih =>
    intro mp K k
    simp only [mkMapFrom]
    rw [ih]
    cases h0 : lastIdxOf rest k with
    | some t =>
      simp only [lastIdxOf, h0]
      congr 1
      omega
    | none =>
      rw [lookupAssoc_insertAssoc]
      by_cases hk : k = rel
      · subst hk
        simp [lastIdxOf, h0]
      · have hk' : ¬ rel = k := fun h' => hk h'.symm
        simp [lastIdxOf, h0, hk, hk']

theorem lookupAssoc_mkMapping (K : Nat) (deps : List String) (k : String) :
    lookupAssoc (mkMapping K deps) k =
      match lastIdxOf deps k with
      | some t => some (K + t)
      | none => none := by
  rw [mkMapping, lookupAssoc_mkMapFrom]
  cases lastIdxOf deps k <;> simp [lookupAssoc]

/-! ### Claim C8: the Asset Builder -/

/-- C8: for every readable, parseable input path, `createAsset` returns an
Asset whose dependency list is the ordered import-string list exactly as the
parser extracted it (not resolved, not deduplicated), whose code is the
transformed text, whose identity is the freshly allocated counter value (the
counter advancing by one), and whose mapping is left empty. -/
theorem createAsset_fields (env : Env) (p c : String) (ds : List String) (ID : Nat)
    (hread : env.read p = some c) (hdeps : env.parseDeps c = some ds) :
    createAsset env p ID =
      .ok ({ id := ID, filename := p, dependencies := ds,
             code := env.transform c, mapping := [] }, ID + 1) := by
  simp [createAsset, hread, hdeps]

theorem createAsset_fields_witness :
    createAsset envLeaf "e" 0 =
      .ok ({ id := 0, filename := "e", dependencies := [],
             code := "E", mapping := [] }, 1) :=
  createAsset_fields envLeaf "e" "E" [] 0 rfl rfl

/-! ### Claim C9: fail-fast on an unreadable entry -/

/-- C9: when the entry file cannot be read, `createGraph` throws the read
error (no graph is returned for any fuel and any counter state), and the whole
script fails with that error before any bundle text is emitted. -/
theorem entry_read_failure_fail_fast (env : Env) (entry : String) (fuel ID : Nat)
    (h : env.read entry = none) :
    createGraph env entry fuel ID = .error (.readError entry) ∧
    runScript env entry fuel = .error (.readError entry) := by
  have h1 : createAsset env entry ID = .error (.readError entry) := by
    simp [createAsset, h]
  have h0 : createAsset env entry 0 = .error (.readError entry) := by
    simp [createAsset, h]
  constructor
  · simp [createGraph, h1]
  · simp [runScript, createGraph, h0]

theorem entry_read_failure_fail_fast_witness :
    createGraph envNone "entry.js" 7 0 = .error (.readError "entry.js") ∧
    runScript envNone "entry.js" 7 = .error (.readError "entry.js") :=
  entry_read_failure_fail_fast envNone "entry.js" 7 0 rfl

/-! ### Loader runtime lemmas (claims C3, C4) -/

theorem bodyRun_state (req : Nat → LoaderState → Option (Nat × LoaderState))
    (hreq : ∀ id st v st', req id st = some (v, st') →
      v = st.fresh ∧ st.fresh < st'.fresh ∧ ∃ tail, st'.log = st.log ++ tail)
    (mapping : List (String × Nat)) :
    ∀ (names : List String) (st st2 : LoaderState),
      bodyRun req mapping names st = some st2 →
      st.fresh ≤ st2.fresh ∧ ∃ tail, st2.log = st.log ++ tail := by
  intro names
  induction names with
  | nil =>
    intro st st2 h
    simp only [bodyRun, Option.some.injEq] at h
    subst h
    exact ⟨le_refl _, [], by simp⟩
  | cons name rest ih =>
    intro st st2 h
    simp only [bodyRun] at h
    split at h
    · simp at h
    next cid hl =>
      split at h
      · simp at h
      next v1 st1 hr =>
        obtain ⟨hv, hf, tail1, hlog⟩ := hreq cid st v1 st1 hr
        obtain ⟨hf2, tail2, hlog2⟩ := ih st1 st2 h
        exact ⟨by omega, tail1 ++ tail2, by rw [hlog2, hlog, List.append_assoc]⟩

theorem requireRun_state (tbl : Nat → Option (List String × List (String × Nat))) :
    ∀ (fuel id : Nat) (st : LoaderState) (v : Nat) (st' : LoaderState),
      requireRun tbl fuel id st = some (v, st') →
      v = st.fresh ∧ st.fresh < st'.fresh ∧ ∃ tail, st'.log = st.log ++ id :: tail := by
  intro fuel
  induction fuel with
  | zero => intro id st v st' h; simp [requireRun] at h
  | succ fuel ih =>
    intro id st v st' h
    simp only [requireRun] at h
    split at h
    · simp at h
    next entry ht =>
      split at h
      · simp at h
      next st2 hb =>
        simp only [Option.some.injEq, Prod.mk.injEq] at h
        obtain ⟨hv, hst⟩ := h
        subst hst
        obtain ⟨hf2, tail, hlog⟩ :=
          bodyRun_state (requireRun tbl fuel)
            (fun id st v st' h => by
              obtain ⟨a, b, t, c⟩ := ih id st v st' h
              exact ⟨a, b, id :: t, c⟩)
            entry.2 entry.1 _ st2 hb
        refine ⟨hv.symm, ?_, tail, ?_⟩
        · have hf2' : st.fresh + 1 ≤ st2.fresh := hf2
          omega
        · rw [hlog]
          simp

/-- C3: in the emitted loader, a second `require` of the same identity within
one run is not short-circuited: it enters the module's wrapped body again (the
identity is appended to the execution log once more, so the body-execution
count grows by at least two over the two calls) and allocates a brand-new
`module.exports` object (the two calls return distinct allocation tags, the
loader holding no cache from identity to computed exports). -/
theorem require_reexecutes_no_cache
    (tbl : Nat → Option (List String × List (String × Nat)))
    (fuel1 fuel2 id : Nat) (st0 st1 st2 : LoaderState) (v1 v2 : Nat)
    (h1 : requireRun tbl fuel1 id st0 = some (v1, st1))
    (h2 : requireRun tbl fuel2 id st1 = some (v2, st2)) :
    v1 ≠ v2 ∧
    (∃ t1, st1.log = st0.log ++ id :: t1) ∧
    (∃ t2, st2.log = st1.log ++ id :: t2) ∧
    st0.log.count id + 2 ≤ st2.log.count id := by
  obtain ⟨hv1, hf1, t1, hl1⟩ := requireRun_state tbl fuel1 id st0 v1 st1 h1
  obtain ⟨hv2, hf2, t2, hl2⟩ := requireRun_state tbl fuel2 id st1 v2 st2 h2
  refine ⟨by omega, ⟨t1, hl1⟩, ⟨t2, hl2⟩, ?_⟩
  rw [hl2, hl1]
  simp [List.count_append, List.count_cons]
  omega

theorem require_reexecutes_no_cache_witness :
    (0 : Nat) ≠ 1 ∧
    (∃ t1, [0] = ([] : List Nat) ++ 0 :: t1) ∧
    (∃ t2, [0, 0] = [0] ++ 0 :: t2) ∧
    List.count 0 ([] : List Nat) + 2 ≤ List.count 0 [0, 0] :=
  require_reexecutes_no_cache (tableOf gLeaf) 1 1 0
    { fresh := 0, log := [] } { fresh := 1, log := [0] } { fresh := 2, log := [0, 0] } 0 1
    (by decide) (by decide)

/-! ### Claim C5: structure of the emitted bundle text -/

theorem tableText_nil : tableText [] = "" := rfl

theorem tableText_cons (mod : Asset) (rest : List Asset) :
    tableText (mod :: rest) = moduleEntry mod ++ tableText rest := rfl

theorem tableText_append (l1 l2 : List Asset) :
    tableText (l1 ++ l2) = tableText l1 ++ tableText l2 := by
  induction l1 with
  | nil => simp [tableText_nil, String.empty_append]
  | cons mod rest ih =>
    rw [List.cons_append, tableText_cons, tableText_cons, ih, String.append_assoc]

theorem foldl_entries (l : List Asset) :
    ∀ init : String, l.foldl (fun acc mod => acc ++ moduleEntry mod) init = init ++ tableText l := by
  induction l with
  | nil => intro init; rw [List.foldl_nil, tableText_nil, String.append_empty]
  | cons mod rest ih =>
    intro init
    rw [List.foldl_cons, ih, tableText_cons, String.append_assoc]

set_option maxRecDepth 16384 in
/-- C5: the bundle text is the loader wrapped around the module-table text;
the table lists, in graph order, one entry per asset, each keyed by the
asset's identity and holding the asset's code inside a function receiving
`require`, `module` and `exports`, followed by the asset's mapping serialized
as string keys to integer values; and the loader body's final statement
before the table argument is the call `require(0)`. -/
theorem bundle_output_structure (graph : List Asset) :
    bundle graph = loaderOpen ++ tableText graph ++ loaderClose ∧
    (∀ mod ∈ graph, ∃ pre post, bundle graph = pre ++ moduleEntry mod ++ post) ∧
    (∀ mod : Asset, moduleEntry mod =
      toString mod.id ++ ": [\n      function (require, module, exports) \x7b\n        " ++
      mod.code ++ "\n      \x7d,\n      " ++ jsonStringify mod.mapping ++ ",\n    ],") ∧
    (∃ s, loaderOpen = s ++ "require(0);\n    \x7d)(\x7b") := by
  have hb : bundle graph = loaderOpen ++ tableText graph ++ loaderClose := by
    rw [bundle, foldl_entries, String.empty_append]
  refine ⟨hb, ?_, fun mod => rfl, ?_⟩
  · intro mod hmem
    obtain ⟨l1, l2, hsplit⟩ := List.mem_iff_append.mp hmem
    refine ⟨loaderOpen ++ tableText l1, tableText l2 ++ loaderClose, ?_⟩
    rw [hb, hsplit, tableText_append, tableText_cons]
    simp only [String.append_assoc]
  · refine ⟨"\n    (function(modules) \x7b\n      function require(id) \x7b\n        const [fn, mapping] = modules[id];\n\n        function localRequire(name) \x7b\n          return require(mapping[name]);\n        \x7d\n\n        const module = \x7b exports : \x7b\x7d \x7d;\n\n        fn(localRequire, module, module.exports);\n\n        return module.exports;\n      \x7d\n\n      ", ?_⟩
    decide

theorem bundle_output_structure_witness :
    bundle gLeaf = loaderOpen ++ tableText gLeaf ++ loaderClose ∧
    (∃ pre post, bundle gLeaf =
      pre ++ moduleEntry { id := 0, filename := "e", dependencies := [], code := "E", mapping := [] } ++ post) :=
  ⟨(bundle_output_structure gLeaf).1,
   (bundle_output_structure gLeaf).2.1
     { id := 0, filename := "e", dependencies := [], code := "E", mapping := [] } (by decide)⟩

/-! ### Claim C2: identity allocation across runs -/

/-- C2 counterexample: the process-wide counter `ID` is *not* re-initialized
between two independent `createGraph` runs in the same process.  The first run
over a one-module filesystem ends with the counter at 1, so the second run's
returned graph gives its entry asset identity 1, not 0. -/
theorem secondRun_entry_id_ne_zero :
    createGraph envLeaf "e" 1 0 = .ok (some (gLeaf, 1)) ∧
    createGraph envLeaf "e" 1 1 =
      .ok (some ([{ id := 1, filename := "e", dependencies := [], code := "E", mapping := [] }], 2)) ∧
    (nth [{ id := 1, filename := "e", dependencies := [], code := "E", mapping := [] }] 0).id ≠ 0 :=
  ⟨rfl, rfl, by decide⟩

/-! ### List indexing and `cpos` lemmas -/

theorem nth_append_left (l l2 : List Asset) (j : Nat) (h : j < l.length) :
    nth (l ++ l2) j = nth l j :=
  List.getD_append l l2 defaultAsset j h

theorem nth_append_right (l l2 : List Asset) (j : Nat) (h : l.length ≤ j) :
    nth (l ++ l2) j = nth l2 (j - l.length) :=
  List.getD_append_right l l2 defaultAsset j h

theorem nth_middle (l1 l2 : List Asset) (x : Asset) : nth (l1 ++ x :: l2) l1.length = x := by
  rw [nth_append_right l1 (x :: l2) l1.length (le_refl _)]
  simp [nth]

theorem nth_after (l1 l2 : List Asset) (x : Asset) (j : Nat) (hj : l1.length < j) :
    nth (l1 ++ x :: l2) j = nth l2 (j - l1.length - 1) := by
  rw [nth_append_right _ _ _ (by omega)]
  have h1 : j - l1.length = (j - l1.length - 1) + 1 := by omega
  rw [h1]
  rfl

theorem nth_mem (q : List Asset) (j : Nat) (h : j < q.length) : nth q j ∈ q := by
  rw [nth, List.getD_eq_getElem q defaultAsset h]
  exact List.getElem_mem h

theorem mem_nth (q : List Asset) (a : Asset) (h : a ∈ q) :
    ∃ j, j < q.length ∧ nth q j = a := by
  obtain ⟨i, hi, hget⟩ := List.mem_iff_getElem.mp h
  exact ⟨i, hi, by rw [nth, List.getD_eq_getElem q defaultAsset hi, hget]⟩

theorem cpos_zero (q : List Asset) : cpos q 0 = 1 := by
  simp [cpos]

theorem cpos_succ (q : List Asset) (i : Nat) (h : i < q.length) :
    cpos q (i + 1) = cpos q i + (nth q i).dependencies.length := by
  unfold cpos
  rw [List.take_succ, List.getElem?_eq_getElem h, List.map_append, List.sum_append]
  have h1 : nth q i = q[i] := List.getD_eq_getElem q defaultAsset h
  simp [← h1]
  omega

theorem cpos_le_succ (q : List Asset) (i : Nat) : cpos q i ≤ cpos q (i + 1) := by
  unfold cpos
  rw [List.take_succ, List.map_append, List.sum_append]
  omega

theorem cpos_mono (q : List Asset) {i j : Nat} (h : i ≤ j) : cpos q i ≤ cpos q j := by
  induction h with
  | refl => exact le_refl _
  | step h ih => exact le_trans ih (cpos_le_succ q _)

theorem cpos_map_take (q : List Asset) (i : Nat) :
    cpos q i = 1 + ((q.map (fun a => a.dependencies.length)).take i).sum := by
  unfold cpos
  rw [List.map_take]

theorem cpos_eq_of_prefix (q q2 : List Asset) (i : Nat)
    (h : (q.map (fun a => a.dependencies.length)).take i =
         (q2.map (fun a => a.dependencies.length)).take i) :
    cpos q i = cpos q2 i := by
  rw [cpos_map_take, cpos_map_take, h]

theorem cpos_append (q q2 : List Asset) (i : Nat) (h : i ≤ q.length) :
    cpos (q ++ q2) i = cpos q i := by
  refine cpos_eq_of_prefix _ _ _ ?_
  rw [List.map_append, List.take_append_eq_append_take]
  have h1 : i - (q.map (fun a => a.dependencies.length)).length = 0 := by
    simp [List.length_map]
    omega
  rw [h1, List.take_zero, List.append_nil]

/-! ### Characterizing `createAsset` and `expandAll` -/

theorem createAsset_ok_inv (env : Env) (p : String) (ID : Nat) (a : Asset) (ID2 : Nat)
    (h : createAsset env p ID = .ok (a, ID2)) :
    ID2 = ID + 1 ∧ a.id = ID ∧ a.filename = p ∧ a.mapping = [] ∧ AssetWF env a := by
  unfold createAsset at h
  split at h
  · simp at h
  next content hread =>
    split at h
    · simp at h
    next ds hdeps =>
      simp only [Except.ok.injEq, Prod.mk.injEq] at h
      obtain ⟨ha, hID⟩ := h
      subst ha
      exact ⟨hID.symm, rfl, rfl, rfl, ⟨content, by simpa using hread, by simpa using hdeps, rfl⟩⟩

theorem expandAll_ok (env : Env) (dir : String) :
    ∀ (deps : List String) (mp0 : List (String × Nat)) (ch0 : List Asset) (K : Nat)
      (mp : List (String × Nat)) (ch : List Asset) (K2 : Nat),
      expandAll env dir deps mp0 ch0 K = .ok (mp, ch, K2) →
      K2 = K + deps.length ∧ mp = mkMapFrom mp0 K deps ∧
      ∃ cs, ch = ch0 ++ cs ∧ cs.length = deps.length ∧
        ∀ t, t < deps.length →
          (nth cs t).id = K + t ∧
          (nth cs t).filename = env.join dir (deps.getD t "") ∧
          (nth cs t).mapping = [] ∧
          AssetWF env (nth cs t) := by
  intro deps
  induction deps with
  | nil =>
    intro mp0 ch0 K mp ch K2 h
    simp only [expandAll, Except.ok.injEq, Prod.mk.injEq] at h
    obtain ⟨h1, h2, h3⟩ := h
    subst h1
    subst h2
    subst h3
    refine ⟨by simp, rfl, [], by simp, rfl, ?_⟩
    intro t ht
    simp at ht
  | cons rel rest ih =>
    intro mp0 ch0 K mp ch K2 h
    simp only [expandAll] at h
    split at h
    · simp at h
    next child K1 hca =>
      obtain ⟨hK1, hid, hfile, hmapn, hwf⟩ := createAsset_ok_inv env _ K child K1 hca
      obtain ⟨hK2, hmp, cs', hch, hlen, hts⟩ := ih _ _ _ _ _ _ h
      subst hK1
      refine ⟨by simp [List.length_cons]; omega, ?_, child :: cs', ?_, by simp [hlen], ?_⟩
      · rw [hmp, hid]
        rfl
      · rw [hch, List.append_assoc]
        rfl
      · intro t ht
        cases t with
        | zero =>
          refine ⟨by simpa using hid, ?_, by simpa using hmapn, by simpa using hwf⟩
          simpa [List.getD_cons_zero] using hfile
        | succ t' =>
          simp only [List.length_cons] at ht
          obtain ⟨h1, h2, h3, h4⟩ := hts t' (by omega)
          have hnth : nth (child :: cs') (t' + 1) = nth cs' t' := rfl
          rw [hnth]
          exact ⟨by omega, by simpa [List.getD_cons_succ] using h2, h3, h4⟩

theorem assetWF_of_fields (env : Env) (x y : Asset)
    (hf : x.filename = y.filename) (hd : x.dependencies = y.dependencies)
    (hc : x.code = y.code) (h : AssetWF env y) : AssetWF env x := by
  obtain ⟨c, h1, h2, h3⟩ := h
  exact ⟨c, by rw [hf]; exact h1, by rw [hd]; exact h2, by rw [hc]; exact h3⟩

/-- One step of the `createGraph` loop preserves the queue invariant: popping
the first unexpanded asset, building one child per dependency occurrence and
appending them, and attaching the accumulated mapping. -/
theorem shape_step (env : Env) (entry : String) (ID0 : Nat)
    (done rest : List Asset) (a : Asset)
    (mp : List (String × Nat)) (cs : List Asset) (K2 : Nat)
    (hshape : GraphShape env entry ID0 (done ++ a :: rest) done.length)
    (hexp : expandAll env (env.dirname a.filename) a.dependencies [] []
      (ID0 + (done ++ a :: rest).length) = .ok (mp, cs, K2)) :
    GraphShape env entry ID0
      (done ++ { a with mapping := mp } :: (rest ++ cs)) (done.length + 1) ∧
    K2 = ID0 + (done ++ { a with mapping := mp } :: (rest ++ cs)).length := by
  obtain ⟨hK2, hmp, cs', hch, hlen, hts⟩ :=
    expandAll_ok env (env.dirname a.filename) a.dependencies [] []
      (ID0 + (done ++ a :: rest).length) mp cs K2 hexp
  obtain rfl : cs = cs' := by simpa using hch
  obtain ⟨hdle, hpos, hentry, hids, hwf, hunm, hmapd, htot, hplt, hchild⟩ := hshape
  have hNd : (done ++ a :: rest).length = done.length + rest.length + 1 := by
    simp only [List.length_append, List.length_cons]
    omega
  have hlen' : (done ++ { a with mapping := mp } :: (rest ++ cs)).length =
      (done ++ a :: rest).length + cs.length := by
    simp only [List.length_append, List.length_cons]
    omega
  have hnth_mid : nth (done ++ a :: rest) done.length = a := nth_middle done rest a
  have hnth_mid' : nth (done ++ { a with mapping := mp } :: (rest ++ cs)) done.length =
      { a with mapping := mp } := nth_middle done (rest ++ cs) { a with mapping := mp }
  have hsame : ∀ j, j < (done ++ a :: rest).length → j ≠ done.length →
      nth (done ++ { a with mapping := mp } :: (rest ++ cs)) j = nth (done ++ a :: rest) j := by
    intro j hj hne
    rcases Nat.lt_or_ge j done.length with hlt | hge
    · rw [nth_append_left done _ j hlt, nth_append_left done _ j hlt]
    · have hgt : done.length < j := by omega
      rw [nth_after done _ _ j hgt, nth_after done rest a j hgt]
      have hjr : j - done.length - 1 < rest.length := by
        rw [hNd] at hj
        omega
      rw [nth_append_left rest cs _ hjr]
  have hfile : ∀ j, j < (done ++ a :: rest).length →
      (nth (done ++ { a with mapping := mp } :: (rest ++ cs)) j).filename =
      (nth (done ++ a :: rest) j).filename := by
    intro j hj
    by_cases hje : j = done.length
    · rw [hje, hnth_mid', hnth_mid]
    · rw [hsame j hj hje]
  have hchild_nth : ∀ t, t < cs.length →
      nth (done ++ { a with mapping := mp } :: (rest ++ cs)) ((done ++ a :: rest).length + t) =
      nth cs t := by
    intro t ht
    have hgt : done.length < (done ++ a :: rest).length + t := by omega
    rw [nth_after done _ _ _ hgt]
    have h1 : (done ++ a :: rest).length + t - done.length - 1 = rest.length + t := by
      rw [hNd]
      omega
    rw [h1, nth_append_right rest cs _ (by omega)]
    congr 1
    omega
  have hmap' : (done ++ { a with mapping := mp } :: (rest ++ cs)).map (fun x => x.dependencies.length) =
      ((done ++ a :: rest).map (fun x => x.dependencies.length)) ++
        cs.map (fun x => x.dependencies.length) := by
    simp [List.map_append]
  have hcpos : ∀ i, i ≤ (done ++ a :: rest).length →
      cpos (done ++ { a with mapping := mp } :: (rest ++ cs)) i = cpos (done ++ a :: rest) i := by
    intro i hi
    rw [cpos_map_take, cpos_map_take, hmap', List.take_append_eq_append_take]
    have h0 : i - ((done ++ a :: rest).map (fun x => x.dependencies.length)).length = 0 := by
      simp only [List.length_map]
      omega
    rw [h0, List.take_zero, List.append_nil]
  have hcposd : cpos (done ++ { a with mapping := mp } :: (rest ++ cs)) done.length =
      (done ++ a :: rest).length := by
    rw [hcpos done.length (by omega), ← htot]
  refine ⟨⟨?_, ?_, ?_, ?_, ?_, ?_, ?_, ?_, ?_, ?_⟩, ?_⟩
  · -- d_le
    rw [hlen']
    omega
  · -- nonempty
    rw [hlen']
    omega
  · -- entry_file
    rw [hfile 0 (by omega)]
    exact hentry
  · -- ids
    intro j hj
    rw [hlen'] at hj
    rcases Nat.lt_or_ge j (done ++ a :: rest).length with hlt | hge
    · by_cases hje : j = done.length
      · have h1 := hids done.length (by omega)
        rw [hnth_mid] at h1
        rw [hje, hnth_mid']
        exact h1
      · rw [hsame j hlt hje]
        exact hids j hlt
    · have ht : j - (done ++ a :: rest).length < cs.length := by omega
      have hjeq : j = (done ++ a :: rest).length + (j - (done ++ a :: rest).length) := by omega
      rw [hjeq, hchild_nth _ ht]
      have := (hts (j - (done ++ a :: rest).length) (by omega)).1
      omega
  · -- wf
    intro j hj
    rw [hlen'] at hj
    rcases Nat.lt_or_ge j (done ++ a :: rest).length with hlt | hge
    · by_cases hje : j = done.length
      · have h1 := hwf done.length (by omega)
        rw [hnth_mid] at h1
        rw [hje, hnth_mid']
        exact assetWF_of_fields env _ a rfl rfl rfl h1
      · rw [hsame j hlt hje]
        exact hwf j hlt
    · have ht : j - (done ++ a :: rest).length < cs.length := by omega
      have hjeq : j = (done ++ a :: rest).length + (j - (done ++ a :: rest).length) := by omega
      rw [hjeq, hchild_nth _ ht]
      exact (hts (j - (done ++ a :: rest).length) (by omega)).2.2.2
  · -- unmapped
    intro j hj1 hj2
    rw [hlen'] at hj2
    rcases Nat.lt_or_ge j (done ++ a :: rest).length with hlt | hge
    · have hje : j ≠ done.length := by omega
      rw [hsame j hlt hje]
      exact hunm j (by omega) hlt
    · have ht : j - (done ++ a :: rest).length < cs.length := by omega
      have hjeq : j = (done ++ a :: rest).length + (j - (done ++ a :: rest).length) := by omega
      rw [hjeq, hchild_nth _ ht]
      exact (hts (j - (done ++ a :: rest).length) (by omega)).2.2.1
  · -- mapped
    intro i hi
    by_cases hie : i = done.length
    · rw [hie, hnth_mid', hcposd]
      exact hmp
    · have hilt : i < done.length := by omega
      have hiN : i < (done ++ a :: rest).length := by omega
      rw [hsame i hiN hie, hcpos i (by omega)]
      exact hmapd i hilt
  · -- total
    have hd' : done.length < (done ++ { a with mapping := mp } :: (rest ++ cs)).length := by
      rw [hlen']
      omega
    rw [cpos_succ _ done.length hd', hnth_mid', hcposd, hlen']
    have : ({ a with mapping := mp } : Asset).dependencies = a.dependencies := rfl
    rw [this, ← hlen]
  · -- pos_lt
    intro i hi
    by_cases hie : i = done.length
    · rw [hie, hcposd]
      omega
    · have hilt : i < done.length := by omega
      rw [hcpos i (by omega)]
      exact hplt i hilt
  · -- child
    intro i hi t ht
    by_cases hie : i = done.length
    · subst hie
      rw [hnth_mid'] at ht ⊢
      have htd : t < a.dependencies.length := ht
      have htcs : t < cs.length := by omega
      rw [hcposd]
      constructor
      · rw [hlen']
        omega
      · rw [hchild_nth t htcs]
        exact (hts t (by omega)).2.1
    · have hilt : i < done.length := by omega
      have hiN : i < (done ++ a :: rest).length := by omega
      rw [hsame i hiN hie] at ht ⊢
      rw [hcpos i (by omega)]
      obtain ⟨hp1, hp2⟩ := hchild i hilt t ht
      constructor
      · rw [hlen']
        omega
      · rw [hfile (cpos (done ++ a :: rest) i + t) hp1]
        exact hp2
  · -- final counter
    rw [hlen', hK2, hlen]
    omega

/-- The `createGraph` loop, run to completion, yields a queue satisfying the
full invariant, with the counter advanced exactly by the queue length. -/
theorem graphLoop_shape (env : Env) (entry : String) (ID0 : Nat) :
    ∀ (fuel : Nat) (done todo : List Asset) (K : Nat) (g : List Asset) (K' : Nat),
      graphLoop env fuel done todo K = .ok (some (g, K')) →
      GraphShape env entry ID0 (done ++ todo) done.length →
      K = ID0 + (done ++ todo).length →
      GraphShape env entry ID0 g g.length ∧ K' = ID0 + g.length := by
  intro fuel
  induction fuel with
  | zero =>
    intro done todo K g K' h hs hK
    cases todo with
    | nil =>
      simp only [graphLoop, Except.ok.injEq, Option.some.injEq, Prod.mk.injEq] at h
      obtain ⟨h1, h2⟩ := h
      subst h1
      subst h2
      rw [List.append_nil] at hs hK
      exact ⟨hs, hK⟩
    | cons a rest => simp [graphLoop] at h
  | succ fuel ih =>
    intro done todo K g K' h hs hK
    cases todo with
    | nil =>
      simp only [graphLoop, Except.ok.injEq, Option.some.injEq, Prod.mk.injEq] at h
      obtain ⟨h1, h2⟩ := h
      subst h1
      subst h2
      rw [List.append_nil] at hs hK
      exact ⟨hs, hK⟩
    | cons a rest =>
      simp only [graphLoop] at h
      split at h
      · simp at h
      next mp cs K2 hexp =>
        rw [hK] at hexp
        obtain ⟨hs2, hK2eq⟩ := shape_step env entry ID0 done rest a mp cs K2 hs hexp
        have happ : (done ++ [{ a with mapping := mp }]) ++ (rest ++ cs) =
            done ++ { a with mapping := mp } :: (rest ++ cs) := by simp
        have hlen1 : (done ++ [{ a with mapping := mp }]).length = done.length + 1 := by simp
        refine ih (done ++ [{ a with mapping := mp }]) (rest ++ cs) K2 g K' h ?_ ?_
        · rw [happ, hlen1]
          exact hs2
        · rw [happ]
          exact hK2eq

/-- Characterization of a completed `createGraph` run. -/
theorem createGraph_shape (env : Env) (entry : String) (fuel ID0 : Nat)
    (g : List Asset) (K' : Nat)
    (h : createGraph env entry fuel ID0 = .ok (some (g, K'))) :
    GraphShape env entry ID0 g g.length ∧ K' = ID0 + g.length := by
  unfold createGraph at h
  split at h
  · simp at h
  next mainAsset ID2 hca =>
    obtain ⟨hID2, hid, hfile, hmapn, hwf⟩ := createAsset_ok_inv env entry ID0 mainAsset ID2 hca
    refine graphLoop_shape env entry ID0 fuel [] [mainAsset] ID2 g K' h ?_ ?_
    · refine ⟨by simp, by simp, ?_, ?_, ?_, ?_, ?_, ?_, ?_, ?_⟩
      · simpa [nth] using hfile
      · intro j hj
        simp only [List.nil_append, List.length_cons, List.length_nil] at hj
        have hj0 : j = 0 := by omega
        subst hj0
        simpa [nth] using hid
      · intro j hj
        simp only [List.nil_append, List.length_cons, List.length_nil] at hj
        have hj0 : j = 0 := by omega
        subst hj0
        simpa [nth] using hwf
      · intro j hj1 hj2
        simp only [List.nil_append, List.length_cons, List.length_nil] at hj2
        have hj0 : j = 0 := by omega
        subst hj0
        simpa [nth] using hmapn
      · intro i hi
        simp at hi
      · simp [cpos_zero]
      · intro i hi
        simp at hi
      · intro i hi
        simp at hi
    · simpa using hID2

theorem cpos_lt_of_lt (g : List Asset) (i j ti : Nat) (hij : i < j) (hi : i < g.length)
    (hti : ti < (nth g i).dependencies.length) :
    cpos g i + ti < cpos g j := by
  have h1 : cpos g (i + 1) = cpos g i + (nth g i).dependencies.length := cpos_succ g i hi
  have h2 : cpos g (i + 1) ≤ cpos g j := cpos_mono g (by omega)
  omega

theorem lastIdxOf_of_mem (deps : List String) (rel : String) (h : rel ∈ deps) :
    ∃ t, lastIdxOf deps rel = some t ∧ t < deps.length ∧ deps.getD t "" = rel := by
  cases hL : lastIdxOf deps rel with
  | none => exact absurd ((lastIdxOf_eq_none deps rel).mp hL) (by simpa using h)
  | some t => exact ⟨t, rfl, lastIdxOf_lt_length deps rel t hL, lastIdxOf_getD deps rel t hL⟩

/-- C2 (amended): within one `createGraph` run starting with the process-wide
counter at `ID0`, the returned graph's identities form the dense range
`ID0 .. ID0+N-1` in discovery order, with the entry asset holding `ID0` (so
`0..N-1` with entry `0` exactly when the run starts in a fresh process); the
run leaves the counter at `ID0 + N`, so a second independent run in the same
process starts there — the allocator is not re-initialized. -/
theorem createGraph_ids_dense_from_start (env : Env) (entry : String) (fuel ID0 : Nat)
    (g : List Asset) (K' : Nat)
    (h : createGraph env entry fuel ID0 = .ok (some (g, K'))) :
    (∀ j, j < g.length → (nth g j).id = ID0 + j) ∧
    0 < g.length ∧ (nth g 0).id = ID0 ∧ K' = ID0 + g.length := by
  obtain ⟨hs, hK⟩ := createGraph_shape env entry fuel ID0 g K' h
  refine ⟨hs.ids, hs.nonempty, ?_, hK⟩
  simpa using hs.ids 0 hs.nonempty

theorem createGraph_ids_dense_from_start_witness :
    (∀ j, j < gLeaf.length → (nth gLeaf j).id = 0 + j) ∧
    0 < gLeaf.length ∧ (nth gLeaf 0).id = 0 ∧ 1 = 0 + gLeaf.length :=
  createGraph_ids_dense_from_start envLeaf "e" 1 0 gLeaf 1 rfl

/-- C6: in any graph returned by `createGraph`, every relative import string
in an asset's dependency list has an entry under that string in the asset's
mapping. -/
theorem mapping_covers_dependencies (env : Env) (entry : String) (fuel ID0 : Nat)
    (g : List Asset) (K' : Nat)
    (h : createGraph env entry fuel ID0 = .ok (some (g, K'))) :
    ∀ a ∈ g, ∀ rel ∈ a.dependencies, ∃ v, lookupAssoc a.mapping rel = some v := by
  obtain ⟨hs, _⟩ := createGraph_shape env entry fuel ID0 g K' h
  intro a ha rel hrel
  obtain ⟨j, hj, hja⟩ := mem_nth g a ha
  subst hja
  have hm := hs.mapped j hj
  rw [hm, lookupAssoc_mkMapping]
  obtain ⟨t, hL, _, _⟩ := lastIdxOf_of_mem (nth g j).dependencies rel hrel
  exact ⟨ID0 + cpos g j + t, by simp [hL]⟩

theorem mapping_covers_dependencies_witness :
    ∃ v, lookupAssoc (nth gA 1).mapping "c" = some v :=
  mapping_covers_dependencies envA "e" 10 0 gA 5 rfl (nth gA 1) (by decide) "c" (by decide)

/-- C1: when two distinct importers in a returned graph each hold an import
string resolving to the same absolute file, the graph holds two distinct
assets for that file, with distinct identities, and each importer's mapping
records its own child's identity — the file was built unconditionally once
per importing edge, with no deduplication by resolved path. -/
theorem createGraph_no_dedup (env : Env) (entry : String) (fuel ID0 : Nat)
    (g : List Asset) (K' : Nat)
    (h : createGraph env entry fuel ID0 = .ok (some (g, K')))
    (i j : Nat) (hi : i < g.length) (hj : j < g.length) (hij : i ≠ j)
    (ri rj : String) (hri : ri ∈ (nth g i).dependencies) (hrj : rj ∈ (nth g j).dependencies)
    (hsame : env.join (env.dirname (nth g i).filename) ri =
             env.join (env.dirname (nth g j).filename) rj) :
    ∃ ai aj, lookupAssoc (nth g i).mapping ri = some ai ∧
      lookupAssoc (nth g j).mapping rj = some aj ∧
      ai ≠ aj ∧
      ∃ pi pj, pi < g.length ∧ pj < g.length ∧ pi ≠ pj ∧
        (nth g pi).id = ai ∧ (nth g pj).id = aj ∧
        (nth g pi).filename = env.join (env.dirname (nth g i).filename) ri ∧
        (nth g pj).filename = env.join (env.dirname (nth g i).filename) ri := by
  obtain ⟨hs, _⟩ := createGraph_shape env entry fuel ID0 g K' h
  obtain ⟨ti, hLi, hti, hgi⟩ := lastIdxOf_of_mem (nth g i).dependencies ri hri
  obtain ⟨tj, hLj, htj, hgj⟩ := lastIdxOf_of_mem (nth g j).dependencies rj hrj
  have hmi := hs.mapped i hi
  have hmj := hs.mapped j hj
  obtain ⟨hpi, hfi⟩ := hs.child i hi ti hti
  obtain ⟨hpj, hfj⟩ := hs.child j hj tj htj
  have hne : cpos g i + ti ≠ cpos g j + tj := by
    rcases Nat.lt_or_gt_of_ne hij with hlt | hgt
    · have := cpos_lt_of_lt g i j ti hlt hi hti
      omega
    · have := cpos_lt_of_lt g j i tj hgt hj htj
      omega
  refine ⟨ID0 + cpos g i + ti, ID0 + cpos g j + tj, ?_, ?_, by omega,
    cpos g i + ti, cpos g j + tj, hpi, hpj, hne, ?_, ?_, ?_, ?_⟩
  · rw [hmi, lookupAssoc_mkMapping, hLi]
  · rw [hmj, lookupAssoc_mkMapping, hLj]
  · rw [hs.ids _ hpi]
    omega
  · rw [hs.ids _ hpj]
    omega
  · rw [hfi, hgi]
  · rw [hfj, hgj, ← hsame]

theorem createGraph_no_dedup_witness :
    ∃ ai aj, lookupAssoc (nth gA 1).mapping "c" = some ai ∧
      lookupAssoc (nth gA 2).mapping "c" = some aj ∧
      ai ≠ aj ∧
      ∃ pi pj, pi < gA.length ∧ pj < gA.length ∧ pi ≠ pj ∧
        (nth gA pi).id = ai ∧ (nth gA pj).id = aj ∧
        (nth gA pi).filename = envA.join (envA.dirname (nth gA 1).filename) "c" ∧
        (nth gA pj).filename = envA.join (envA.dirname (nth gA 1).filename) "c" :=
  createGraph_no_dedup envA "e" 10 0 gA 5 rfl 1 2 (by decide) (by decide) (by decide)
    "c" "c" (by decide) (by decide) (by decide)

/-- C10: a duplicated import string in one asset's dependency list yields one
freshly built child asset per occurrence, all present in the graph with
distinct identities and the same resolved file, while the importer's mapping
records that string just once, bound to the identity allocated for the *last*
occurrence; the child built for an earlier occurrence stays in the graph but
is referenced by no asset's mapping. -/
theorem duplicate_dependency_last_wins (env : Env) (entry : String) (fuel ID0 : Nat)
    (g : List Asset) (K' : Nat)
    (h : createGraph env entry fuel ID0 = .ok (some (g, K')))
    (i : Nat) (hi : i < g.length) (t1 t2 : Nat) (rel : String)
    (ht12 : t1 < t2) (ht2 : t2 < (nth g i).dependencies.length)
    (hg1 : (nth g i).dependencies.getD t1 "" = rel)
    (hg2 : (nth g i).dependencies.getD t2 "" = rel) :
    ∃ tL, lastIdxOf (nth g i).dependencies rel = some tL ∧ t2 ≤ tL ∧
      lookupAssoc (nth g i).mapping rel = some (ID0 + cpos g i + tL) ∧
      cpos g i + t1 < g.length ∧ cpos g i + t2 < g.length ∧
      (nth g (cpos g i + t1)).id ≠ (nth g (cpos g i + t2)).id ∧
      (nth g (cpos g i + t1)).filename = (nth g (cpos g i + t2)).filename ∧
      (∀ i2, i2 < g.length → ∀ rel2,
        lookupAssoc (nth g i2).mapping rel2 ≠ some ((nth g (cpos g i + t1)).id)) := by
  obtain ⟨hs, _⟩ := createGraph_shape env entry fuel ID0 g K' h
  have ht1 : t1 < (nth g i).dependencies.length := by omega
  obtain ⟨tL, hL, htL⟩ := lastIdxOf_ge (nth g i).dependencies rel t2 ht2 hg2
  obtain ⟨hp1, hf1⟩ := hs.child i hi t1 ht1
  obtain ⟨hp2, hf2⟩ := hs.child i hi t2 ht2
  refine ⟨tL, hL, htL, ?_, hp1, hp2, ?_, ?_, ?_⟩
  · rw [hs.mapped i hi, lookupAssoc_mkMapping, hL]
  · rw [hs.ids _ hp1, hs.ids _ hp2]
    omega
  · rw [hf1, hf2, hg1, hg2]
  · intro i2 hi2 rel2 hcontra
    rw [hs.mapped i2 hi2, lookupAssoc_mkMapping] at hcontra
    rw [hs.ids _ hp1] at hcontra
    cases hL2 : lastIdxOf (nth g i2).dependencies rel2 with
    | none => rw [hL2] at hcontra; simp at hcontra
    | some tL2 =>
      rw [hL2] at hcontra
      simp only [Option.some.injEq] at hcontra
      have htL2 : tL2 < (nth g i2).dependencies.length :=
        lastIdxOf_lt_length _ _ _ hL2
      rcases Nat.lt_trichotomy i2 i with hlt | heq | hgt
      · have := cpos_lt_of_lt g i2 i tL2 hlt (by omega) htL2
        omega
      · subst heq
        have heqt : tL2 = t1 := by omega
        subst heqt
        have hrel2 : (nth g i2).dependencies.getD tL2 "" = rel2 :=
          lastIdxOf_getD _ _ _ hL2
        rw [hg1] at hrel2
        subst hrel2
        obtain ⟨t', hL', ht'⟩ := lastIdxOf_ge (nth g i2).dependencies rel t2 ht2 hg2
        rw [hL2] at hL'
        simp only [Option.some.injEq] at hL'
        omega
      · have := cpos_lt_of_lt g i i2 t1 hgt hi ht1
        omega

theorem duplicate_dependency_last_wins_witness :
    ∃ tL, lastIdxOf (nth gDup 0).dependencies "a" = some tL ∧ 1 ≤ tL ∧
      lookupAssoc (nth gDup 0).mapping "a" = some (0 + cpos gDup 0 + tL) ∧
      cpos gDup 0 + 0 < gDup.length ∧ cpos gDup 0 + 1 < gDup.length ∧
      (nth gDup (cpos gDup 0 + 0)).id ≠ (nth gDup (cpos gDup 0 + 1)).id ∧
      (nth gDup (cpos gDup 0 + 0)).filename = (nth gDup (cpos gDup 0 + 1)).filename ∧
      (∀ i2, i2 < gDup.length → ∀ rel2,
        lookupAssoc (nth gDup i2).mapping rel2 ≠ some ((nth gDup (cpos gDup 0 + 0)).id)) :=
  duplicate_dependency_last_wins envDup "e" 10 0 gDup 3 rfl 0 (by decide) 0 1 "a"
    (by decide) (by decide) (by decide) (by decide)

/-! ### Claim C4: execution discipline of the emitted bundle -/

/-- C4 counterexample: for the graph built from a file importing `./a` twice,
the bundle run `require(0)` executes the wrapped body of module 2 twice and
never executes the body of module 1 (the first-occurrence child, present in
the table but referenced by no mapping) — so it is not the case that every
module's wrapped function body executes exactly once. -/
theorem duplicate_import_breaks_once :
    createGraph envDup "e" 5 0 = .ok (some (gDup, 3)) ∧
    requireRun (tableOf gDup) 5 0 { fresh := 0, log := [] } =
      some (0, { fresh := 3, log := [0, 2, 2] }) ∧
    (nth gDup 1).id = 1 ∧ List.count 1 [0, 2, 2] = 0 ∧
    (nth gDup 2).id = 2 ∧ List.count 2 [0, 2, 2] = 2 :=
  ⟨rfl, by decide, rfl, by decide, rfl, by decide⟩

theorem lastIdxOf_nodup (deps : List String) (key : String) (t : Nat)
    (hnd : deps.Nodup) (ht : t < deps.length) (hg : deps.getD t "" = key) :
    lastIdxOf deps key = some t := by
  obtain ⟨t', hL', ht'⟩ := lastIdxOf_ge deps key t ht hg
  have htl' : t' < deps.length := lastIdxOf_lt_length _ _ _ hL'
  have hgt' : deps.getD t' "" = key := lastIdxOf_getD _ _ _ hL'
  have heq : deps[t] = deps[t'] := by
    have h1 : deps.getD t "" = deps[t] := List.getD_eq_getElem deps "" ht
    have h2 : deps.getD t' "" = deps[t'] := List.getD_eq_getElem deps "" htl'
    rw [← h1, ← h2, hg, hgt']
  have htt : t = t' := (List.Nodup.getElem_inj_iff hnd).mp heq
  rw [hL', htt]

theorem find_by_id (g : List Asset) : ∀ (off i : Nat),
    (∀ j, j < g.length → (nth g j).id = off + j) → i < g.length →
    g.find? (fun a => a.id == off + i) = some (nth g i) := by
  induction g with
  | nil => intro off i _ hi; simp at hi
  | cons a rest ih =>
    intro off i hids hi
    have h0 : a.id = off := by simpa [nth] using hids 0 (by simp)
    cases i with
    | zero =>
      rw [List.find?_cons_of_pos _ (by simp [h0])]
      rfl
    | succ i' =>
      rw [List.find?_cons_of_neg _ (by simp [h0])]
      have hids' : ∀ j, j < rest.length → (nth rest j).id = (off + 1) + j := by
        intro j hj
        have h1 := hids (j + 1) (by simp only [List.length_cons]; omega)
        have hnth : nth (a :: rest) (j + 1) = nth rest j := rfl
        rw [hnth] at h1
        omega
      have hlen : i' < rest.length := by
        simp only [List.length_cons] at hi
        omega
      have h2 := ih (off + 1) i' hids' hlen
      have harith : off + (i' + 1) = (off + 1) + i' := by omega
      rw [harith]
      exact h2

theorem tableOf_lookup (env : Env) (entry : String) (g : List Asset)
    (hs : GraphShape env entry 0 g g.length) (i : Nat) (hi : i < g.length) :
    tableOf g i = some ((nth g i).dependencies, (nth g i).mapping) := by
  have hfind := find_by_id g 0 i hs.ids hi
  have harith : (0 : Nat) + i = i := by omega
  rw [harith] at hfind
  simp [tableOf, hfind]

/-- Running one module body whose import names resolve, in order, to the
child ids `kids`, each of which the interpreter runs as a full traversal. -/
theorem bodyRun_trav (req : Nat → LoaderState → Option (Nat × LoaderState))
    (trav : Nat → List Nat) (mapping : List (String × Nat)) :
    ∀ (names : List String) (kids : List Nat) (st : LoaderState),
      names.length = kids.length →
      (∀ t, t < names.length → lookupAssoc mapping (names.getD t "") = some (kids.getD t 0)) →
      (∀ t, t < names.length → ∀ st' : LoaderState, req (kids.getD t 0) st' =
        some (st'.fresh, { fresh := st'.fresh + (trav (kids.getD t 0)).length,
                           log := st'.log ++ trav (kids.getD t 0) })) →
      bodyRun req mapping names st =
        some { fresh := st.fresh + ((kids.map trav).map List.length).sum,
               log := st.log ++ (kids.map trav).flatten } := by
  intro names
  induction names with
  | nil =>
    intro kids st hlen _ _
    have hk : kids = [] := List.length_eq_zero.mp (by simpa using hlen.symm)
    subst hk
    simp [bodyRun]
  | cons name restN ih =>
    intro kids st hlen hlk hreq
    cases kids with
    | nil => simp at hlen
    | cons k restK =>
      have h0 := hlk 0 (by simp)
      simp only [List.getD_cons_zero] at h0
      have hr0 := hreq 0 (by simp) st
      simp only [List.getD_cons_zero] at hr0
      simp only [bodyRun, h0, hr0]
      have hlen' : restN.length = restK.length := by
        simp only [List.length_cons] at hlen
        omega
      have hlk' : ∀ t, t < restN.length →
          lookupAssoc mapping (restN.getD t "") = some (restK.getD t 0) := by
        intro t ht
        have := hlk (t + 1) (by simp only [List.length_cons]; omega)
        simpa [List.getD_cons_succ] using this
      have hreq' : ∀ t, t < restN.length → ∀ st' : LoaderState,
          req (restK.getD t 0) st' =
          some (st'.fresh, { fresh := st'.fresh + (trav (restK.getD t 0)).length,
                             log := st'.log ++ trav (restK.getD t 0) }) := by
        intro t ht st'
        have := hreq (t + 1) (by simp only [List.length_cons]; omega) st'
        simpa [List.getD_cons_succ] using this
      rw [ih restK _ hlen' hlk' hreq']
      simp [List.append_assoc, Nat.add_assoc]

theorem preTrav_unfold (g : List Asset) (i : Nat)
    (hguard : ∀ t, t < (nth g i).dependencies.length →
      i < cpos g i + t ∧ cpos g i + t < g.length) :
    preTrav g i = i :: ((List.range ((nth g i).dependencies.length)).map
      (fun t => preTrav g (cpos g i + t))).flatten := by
  rw [preTrav]
  congr 2
  refine List.map_eq_map_iff.mpr ?_
  intro t ht
  exact dif_pos (hguard t (List.mem_range.mp ht))

theorem preTrav_ge (g : List Asset) : ∀ (fuel i : Nat), g.length - i ≤ fuel →
    ∀ x ∈ preTrav g i, i ≤ x := by
  intro fuel
  induction fuel with
  | zero =>
    intro i hf x hx
    have hnth : nth g i = defaultAsset := by
      rw [nth]
      exact List.getD_eq_default g defaultAsset (by omega)
    rw [preTrav, hnth] at hx
    simp [defaultAsset] at hx
    omega
  | succ fuel ih =>
    intro i hf x hx
    rw [preTrav] at hx
    rcases List.mem_cons.mp hx with rfl | hx'
    · exact le_refl x
    · obtain ⟨l, hl, hxl⟩ := List.mem_flatten.mp hx'
      obtain ⟨t, htr, hteq⟩ := List.mem_map.mp hl
      by_cases hg : i < cpos g i + t ∧ cpos g i + t < g.length
      · rw [← hteq, dif_pos hg] at hxl
        have := ih (cpos g i + t) (by omega) x hxl
        omega
      · rw [← hteq, dif_neg hg] at hxl
        simp at hxl

theorem preTrav_lt (g : List Asset) : ∀ (fuel i : Nat), g.length - i ≤ fuel →
    i < g.length → ∀ x ∈ preTrav g i, x < g.length := by
  intro fuel
  induction fuel with
  | zero => intro i hf hi; omega
  | succ fuel ih =>
    intro i hf hi x hx
    rw [preTrav] at hx
    rcases List.mem_cons.mp hx with rfl | hx'
    · exact hi
    · obtain ⟨l, hl, hxl⟩ := List.mem_flatten.mp hx'
      obtain ⟨t, htr, hteq⟩ := List.mem_map.mp hl
      by_cases hg : i < cpos g i + t ∧ cpos g i + t < g.length
      · rw [← hteq, dif_pos hg] at hxl
        exact ih (cpos g i + t) (by omega) hg.2 x hxl
      · rw [← hteq, dif_neg hg] at hxl
        simp at hxl

/-- Demand-driven execution: with enough fuel, `require(i)` over the table of
a well-shaped graph with duplicate-free dependency lists succeeds, returns
the tag of its freshly allocated exports object, and appends to the log
exactly the preorder traversal of the subtree rooted at `i`. -/
theorem requireRun_traverses (env : Env) (entry : String) (g : List Asset)
    (hs : GraphShape env entry 0 g g.length)
    (hnd : ∀ j, j < g.length → (nth g j).dependencies.Nodup) :
    ∀ (fuel i : Nat), i < g.length → g.length - i ≤ fuel →
      ∀ st : LoaderState, requireRun (tableOf g) fuel i st =
        some (st.fresh, { fresh := st.fresh + (preTrav g i).length,
                          log := st.log ++ preTrav g i }) := by
  intro fuel
  induction fuel with
  | zero =>
    intro i hi hf
    exact absurd hf (by omega)
  | succ fuel ih =>
    intro i hi hf st
    have htbl := tableOf_lookup env entry g hs i hi
    have hguard : ∀ t, t < (nth g i).dependencies.length →
        i < cpos g i + t ∧ cpos g i + t < g.length := by
      intro t ht
      exact ⟨by have := hs.pos_lt i hi; omega, (hs.child i hi t ht).1⟩
    have hkid_get : ∀ t, t < (nth g i).dependencies.length →
        ((List.range ((nth g i).dependencies.length)).map (fun u => cpos g i + u)).getD t 0 =
          cpos g i + t := by
      intro t ht
      rw [List.getD_eq_getElem _ _ (by simpa using ht)]
      simp
    have hlen : (nth g i).dependencies.length =
        ((List.range ((nth g i).dependencies.length)).map (fun u => cpos g i + u)).length := by
      simp
    have hlk : ∀ t, t < (nth g i).dependencies.length →
        lookupAssoc (nth g i).mapping ((nth g i).dependencies.getD t "") =
          some (((List.range ((nth g i).dependencies.length)).map
            (fun u => cpos g i + u)).getD t 0) := by
      intro t ht
      rw [hs.mapped i hi, lookupAssoc_mkMapping,
        lastIdxOf_nodup _ _ t (hnd i hi) ht rfl, hkid_get t ht]
      simp
    have hreq : ∀ t, t < (nth g i).dependencies.length → ∀ st' : LoaderState,
        requireRun (tableOf g) fuel
          (((List.range ((nth g i).dependencies.length)).map
            (fun u => cpos g i + u)).getD t 0) st' =
        some (st'.fresh,
          { fresh := st'.fresh + (preTrav g (((List.range ((nth g i).dependencies.length)).map
              (fun u => cpos g i + u)).getD t 0)).length,
            log := st'.log ++ preTrav g (((List.range ((nth g i).dependencies.length)).map
              (fun u => cpos g i + u)).getD t 0) }) := by
      intro t ht st'
      rw [hkid_get t ht]
      exact ih (cpos g i + t) (hguard t ht).2 (by have := (hguard t ht).1; omega) st'
    simp only [requireRun, htbl]
    rw [bodyRun_trav (requireRun (tableOf g) fuel) (preTrav g) (nth g i).mapping
      (nth g i).dependencies _ _ hlen hlk hreq]
    rw [preTrav_unfold g i hguard]
    have hmm : ((List.range ((nth g i).dependencies.length)).map
        (fun u => cpos g i + u)).map (preTrav g) =
        (List.range ((nth g i).dependencies.length)).map (fun t => preTrav g (cpos g i + t)) := by
      rw [List.map_map]
      rfl
    rw [hmm]
    simp [List.length_flatten, List.append_assoc]
    omega

theorem cpos_pos (g : List Asset) (i : Nat) : 1 ≤ cpos g i := by
  unfold cpos
  omega

theorem shape_guard (env : Env) (entry : String) (ID0 : Nat) (g : List Asset)
    (hs : GraphShape env entry ID0 g g.length) :
    ∀ i, i < g.length → ∀ t, t < (nth g i).dependencies.length →
      i < cpos g i + t ∧ cpos g i + t < g.length := by
  intro i hi t ht
  exact ⟨by have := hs.pos_lt i hi; omega, (hs.child i hi t ht).1⟩

theorem exists_interval (g : List Asset) : ∀ (d jj : Nat), jj < cpos g d →
    jj = 0 ∨ ∃ i, i < d ∧ cpos g i ≤ jj ∧ jj < cpos g (i + 1) := by
  intro d
  induction d with
  | zero =>
    intro jj hj
    rw [cpos_zero] at hj
    omega
  | succ d ih =>
    intro jj hj
    by_cases hlt : jj < cpos g d
    · rcases ih jj hlt with h0 | ⟨i, hi, h1, h2⟩
      · exact Or.inl h0
      · exact Or.inr ⟨i, by omega, h1, h2⟩
    · exact Or.inr ⟨d, by omega, by omega, hj⟩

theorem interval_uniq (g : List Asset) (i1 i2 jj : Nat)
    (h1 : cpos g i1 ≤ jj) (h2 : jj < cpos g (i1 + 1))
    (h3 : cpos g i2 ≤ jj) (h4 : jj < cpos g (i2 + 1)) : i1 = i2 := by
  by_contra hne
  rcases Nat.lt_or_gt_of_ne hne with hlt | hgt
  · have := cpos_mono g (show i1 + 1 ≤ i2 by omega)
    omega
  · have := cpos_mono g (show i2 + 1 ≤ i1 by omega)
    omega

theorem parentOf_spec (env : Env) (entry : String) (ID0 : Nat) (g : List Asset)
    (hs : GraphShape env entry ID0 g g.length) (jj : Nat) (h1 : 1 ≤ jj) (hj : jj < g.length) :
    parentOf g jj < g.length ∧ parentOf g jj < jj ∧
    cpos g (parentOf g jj) ≤ jj ∧ jj < cpos g (parentOf g jj + 1) := by
  have htot : g.length = cpos g g.length := hs.total
  have hex : ∃ i, i < g.length ∧ cpos g i ≤ jj ∧ jj < cpos g (i + 1) := by
    rcases exists_interval g g.length jj (by omega) with h0 | hh
    · omega
    · exact hh
  obtain ⟨i0, hi0, hc1, hc2⟩ := hex
  have hsome : ((List.range g.length).find?
      (fun i => decide (cpos g i ≤ jj ∧ jj < cpos g (i + 1)))).isSome := by
    apply List.find?_isSome.mpr
    exact ⟨i0, List.mem_range.mpr hi0, by simp [hc1, hc2]⟩
  obtain ⟨val, hval⟩ := Option.isSome_iff_exists.mp hsome
  have hp : parentOf g jj = val := by rw [parentOf, hval]; rfl
  have hprop := List.find?_some hval
  simp only [decide_eq_true_eq] at hprop
  have hvl : val < g.length := List.mem_range.mp (List.mem_of_find?_eq_some hval)
  rw [hp]
  have hlt : val < jj := by
    have := hs.pos_lt val hvl
    omega
  exact ⟨hvl, hlt, hprop.1, hprop.2⟩

theorem parentOf_eq (env : Env) (entry : String) (ID0 : Nat) (g : List Asset)
    (hs : GraphShape env entry ID0 g g.length) (i jj : Nat)
    (hc1 : cpos g i ≤ jj) (hc2 : jj < cpos g (i + 1))
    (h1 : 1 ≤ jj) (hj : jj < g.length) : parentOf g jj = i := by
  obtain ⟨_, _, hc1', hc2'⟩ := parentOf_spec env entry ID0 g hs jj h1 hj
  exact interval_uniq g (parentOf g jj) i jj hc1' hc2' hc1 hc2

theorem ancChain_zero (g : List Asset) (f : Nat) : ancChain g f 0 = [0] := by
  cases f <;> simp [ancChain]

theorem ancChain_stable (env : Env) (entry : String) (ID0 : Nat) (g : List Asset)
    (hs : GraphShape env entry ID0 g g.length) :
    ∀ jj, jj < g.length → ∀ f1 f2, jj ≤ f1 → jj ≤ f2 →
      ancChain g f1 jj = ancChain g f2 jj := by
  intro jj
  induction jj using Nat.strong_induction_on with
  | _ jj ih =>
    intro hj f1 f2 hf1 hf2
    by_cases h0 : jj = 0
    · subst h0
      rw [ancChain_zero, ancChain_zero]
    · have h1 : 1 ≤ jj := by omega
      obtain ⟨hpl, hplt, _, _⟩ := parentOf_spec env entry ID0 g hs jj h1 hj
      obtain ⟨a, rfl⟩ : ∃ a, f1 = a + 1 := ⟨f1 - 1, by omega⟩
      obtain ⟨b, rfl⟩ : ∃ b, f2 = b + 1 := ⟨f2 - 1, by omega⟩
      simp only [ancChain, if_neg h0]
      congr 1
      exact ih (parentOf g jj) hplt hpl a b (by omega) (by omega)

theorem anc_iff (env : Env) (entry : String) (ID0 : Nat) (g : List Asset)
    (hs : GraphShape env entry ID0 g g.length) (i jj : Nat) (hj : jj < g.length) :
    Anc g i jj ↔ (i = jj ∨ (1 ≤ jj ∧ Anc g i (parentOf g jj))) := by
  by_cases h0 : jj = 0
  · subst h0
    simp [Anc, ancChain_zero]
  · have h1 : 1 ≤ jj := by omega
    obtain ⟨hpl, hplt, _, _⟩ := parentOf_spec env entry ID0 g hs jj h1 hj
    obtain ⟨j', rfl⟩ : ∃ j', jj = j' + 1 := ⟨jj - 1, by omega⟩
    unfold Anc
    conv_lhs => rw [show ancChain g (j' + 1) (j' + 1) =
      (j' + 1) :: ancChain g j' (parentOf g (j' + 1)) from by simp [ancChain, h0]]
    rw [ancChain_stable env entry ID0 g hs (parentOf g (j' + 1)) hpl j' (parentOf g (j' + 1))
      (by omega) (le_refl _)]
    simp [List.mem_cons]

theorem anc_refl (env : Env) (entry : String) (ID0 : Nat) (g : List Asset)
    (hs : GraphShape env entry ID0 g g.length) (jj : Nat) (hj : jj < g.length) :
    Anc g jj jj :=
  (anc_iff env entry ID0 g hs jj jj hj).mpr (Or.inl rfl)

theorem anc_le (env : Env) (entry : String) (ID0 : Nat) (g : List Asset)
    (hs : GraphShape env entry ID0 g g.length) :
    ∀ jj, jj < g.length → ∀ i, Anc g i jj → i ≤ jj := by
  intro jj
  induction jj using Nat.strong_induction_on with
  | _ jj ih =>
    intro hj i hanc
    rcases (anc_iff env entry ID0 g hs i jj hj).mp hanc with heq | ⟨h1, hrec⟩
    · omega
    · obtain ⟨hpl, hplt, _, _⟩ := parentOf_spec env entry ID0 g hs jj h1 hj
      have := ih (parentOf g jj) hplt hpl i hrec
      omega

theorem anc_zero (env : Env) (entry : String) (ID0 : Nat) (g : List Asset)
    (hs : GraphShape env entry ID0 g g.length) :
    ∀ jj, jj < g.length → Anc g 0 jj := by
  intro jj
  induction jj using Nat.strong_induction_on with
  | _ jj ih =>
    intro hj
    by_cases h0 : jj = 0
    · subst h0
      exact anc_refl env entry ID0 g hs 0 hj
    · have h1 : 1 ≤ jj := by omega
      obtain ⟨hpl, hplt, _, _⟩ := parentOf_spec env entry ID0 g hs jj h1 hj
      exact (anc_iff env entry ID0 g hs 0 jj hj).mpr (Or.inr ⟨h1, ih (parentOf g jj) hplt hpl⟩)

theorem anc_trans (env : Env) (entry : String) (ID0 : Nat) (g : List Asset)
    (hs : GraphShape env entry ID0 g g.length) :
    ∀ jj, jj < g.length → ∀ m i, Anc g m jj → Anc g i m → Anc g i jj := by
  intro jj
  induction jj using Nat.strong_induction_on with
  | _ jj ih =>
    intro hj m i hm hi
    rcases (anc_iff env entry ID0 g hs m jj hj).mp hm with heq | ⟨h1, hrec⟩
    · subst heq
      exact hi
    · obtain ⟨hpl, hplt, _, _⟩ := parentOf_spec env entry ID0 g hs jj h1 hj
      exact (anc_iff env entry ID0 g hs i jj hj).mpr
        (Or.inr ⟨h1, ih (parentOf g jj) hplt hpl m i hrec hi⟩)

theorem anc_parentOf (env : Env) (entry : String) (ID0 : Nat) (g : List Asset)
    (hs : GraphShape env entry ID0 g g.length) (jj : Nat) (hj : jj < g.length)
    (m : Nat) (hm : Anc g m jj) (h1 : 1 ≤ m) : Anc g (parentOf g m) jj := by
  have hmle := anc_le env entry ID0 g hs jj hj m hm
  have hml : m < g.length := by omega
  obtain ⟨hpl, hplt, _, _⟩ := parentOf_spec env entry ID0 g hs m h1 hml
  have hpm : Anc g (parentOf g m) m :=
    (anc_iff env entry ID0 g hs (parentOf g m) m hml).mpr
      (Or.inr ⟨h1, anc_refl env entry ID0 g hs (parentOf g m) hpl⟩)
  exact anc_trans env entry ID0 g hs jj hj m (parentOf g m) hm hpm

theorem anc_unique_child (env : Env) (entry : String) (ID0 : Nat) (g : List Asset)
    (hs : GraphShape env entry ID0 g g.length) :
    ∀ jj, jj < g.length → ∀ i, Anc g i jj → i < jj →
    ∃ m, Anc g m jj ∧ 1 ≤ m ∧ m < g.length ∧ parentOf g m = i ∧
      (∀ m', 1 ≤ m' → m' < g.length → Anc g m' jj → parentOf g m' = i → m' = m) := by
  intro jj
  induction jj using Nat.strong_induction_on with
  | _ jj ih =>
    intro hj i hanc hij
    have h1 : 1 ≤ jj := by omega
    obtain ⟨hpl, hplt, _, _⟩ := parentOf_spec env entry ID0 g hs jj h1 hj
    have hanc' : Anc g i (parentOf g jj) := by
      rcases (anc_iff env entry ID0 g hs i jj hj).mp hanc with heq | ⟨_, hh⟩
      · omega
      · exact hh
    by_cases hpi : parentOf g jj = i
    · refine ⟨jj, anc_refl env entry ID0 g hs jj hj, h1, hj, hpi, ?_⟩
      intro m' h1' hl' hanc'' hp'
      by_contra hne
      have hrec : Anc g m' (parentOf g jj) := by
        rcases (anc_iff env entry ID0 g hs m' jj hj).mp hanc'' with heq | ⟨_, hh⟩
        · exact absurd heq hne
        · exact hh
      rw [hpi] at hrec
      have hle : m' ≤ i := anc_le env entry ID0 g hs i (by omega) m' hrec
      obtain ⟨_, hlt', _, _⟩ := parentOf_spec env entry ID0 g hs m' h1' hl'
      rw [hp'] at hlt'
      omega
    · have hine : i ≠ parentOf g jj := fun hh => hpi hh.symm
      have hilt : i < parentOf g jj := by
        have := anc_le env entry ID0 g hs (parentOf g jj) hpl i hanc'
        omega
      obtain ⟨m, hmanc, hm1, hml, hmp, huniq⟩ := ih (parentOf g jj) hplt hpl i hanc' hilt
      refine ⟨m, (anc_iff env entry ID0 g hs m jj hj).mpr (Or.inr ⟨h1, hmanc⟩),
        hm1, hml, hmp, ?_⟩
      intro m' h1' hl' hanc'' hp'
      by_cases hm'jj : m' = jj
      · subst hm'jj
        exact absurd hp' hpi
      · have hrec : Anc g m' (parentOf g jj) := by
          rcases (anc_iff env entry ID0 g hs m' jj hj).mp hanc'' with heq | ⟨_, hh⟩
          · exact absurd heq hm'jj
          · exact hh
        exact huniq m' h1' hl' hrec hp'

theorem sum_map_ite_zero (n : Nat) (P : Nat → Prop) [DecidablePred P]
    (h : ∀ t, t < n → ¬ P t) :
    ((List.range n).map (fun t => if P t then 1 else 0)).sum = 0 := by
  induction n with
  | zero => simp
  | succ n ih =>
    rw [List.range_succ, List.map_append, List.sum_append]
    rw [ih (fun t ht => h t (by omega))]
    simp [h n (by omega)]

theorem sum_map_ite_one (n : Nat) (P : Nat → Prop) [DecidablePred P]
    (t0 : Nat) (h0 : t0 < n) (hP : P t0) (huniq : ∀ t, t < n → P t → t = t0) :
    ((List.range n).map (fun t => if P t then 1 else 0)).sum = 1 := by
  induction n with
  | zero => omega
  | succ n ih =>
    rw [List.range_succ, List.map_append, List.sum_append]
    by_cases hn : t0 = n
    · subst hn
      rw [sum_map_ite_zero t0 P
        (fun t ht hPt => by have := huniq t (by omega) hPt; omega)]
      simp [hP]
    · have hnP : ¬ P n := fun hPn => hn (huniq n (by omega) hPn).symm
      rw [ih (by omega) (fun t ht hPt => huniq t (by omega) hPt)]
      simp [hnP]

theorem preTrav_count_self (env : Env) (entry : String) (ID0 : Nat) (g : List Asset)
    (hs : GraphShape env entry ID0 g g.length) (i : Nat) (hil : i < g.length) :
    (preTrav g i).count i = 1 := by
  rw [preTrav_unfold g i (shape_guard env entry ID0 g hs i hil)]
  rw [List.count_cons]
  have htail : ((((List.range ((nth g i).dependencies.length))).map
      (fun t => preTrav g (cpos g i + t))).flatten).count i = 0 := by
    rw [List.count_flatten]
    apply List.sum_eq_zero
    intro x hx
    rw [List.map_map] at hx
    obtain ⟨t, htr, hteq⟩ := List.mem_map.mp hx
    have ht := List.mem_range.mp htr
    rw [← hteq]
    simp only [Function.comp]
    rw [List.count_eq_zero]
    intro hmem
    have hge := preTrav_ge g g.length (cpos g i + t) (by omega) i hmem
    have := (shape_guard env entry ID0 g hs i hil t ht).1
    omega
  rw [htail]
  simp

theorem preTrav_count (env : Env) (entry : String) (ID0 : Nat) (g : List Asset)
    (hs : GraphShape env entry ID0 g g.length) :
    ∀ (fuel i jj : Nat), jj - i ≤ fuel → i ≤ jj → jj < g.length → i < g.length →
      (preTrav g i).count jj = if Anc g i jj then 1 else 0 := by
  intro fuel
  induction fuel with
  | zero =>
    intro i jj hf hij hjl hil
    have hieq : i = jj := by omega
    subst hieq
    rw [preTrav_count_self env entry ID0 g hs i hil,
      if_pos (anc_refl env entry ID0 g hs i hjl)]
  | succ fuel ih =>
    intro i jj hf hij hjl hil
    by_cases hieq : i = jj
    · subst hieq
      rw [preTrav_count_self env entry ID0 g hs i hil,
        if_pos (anc_refl env entry ID0 g hs i hjl)]
    · have hilt : i < jj := by omega
      rw [preTrav_unfold g i (shape_guard env entry ID0 g hs i hil)]
      rw [List.count_cons, List.count_flatten, List.map_map]
      have hcongr : ∀ t ∈ List.range ((nth g i).dependencies.length),
          (List.count jj ∘ (fun t => preTrav g (cpos g i + t))) t =
          (fun t => if Anc g (cpos g i + t) jj then 1 else 0) t := by
        intro t htr
        have ht := List.mem_range.mp htr
        have hk1 : i < cpos g i + t := (shape_guard env entry ID0 g hs i hil t ht).1
        have hk2 : cpos g i + t < g.length := (shape_guard env entry ID0 g hs i hil t ht).2
        simp only [Function.comp]
        by_cases hkj : cpos g i + t ≤ jj
        · exact ih (cpos g i + t) jj (by omega) hkj hjl hk2
        · have hcnt : (preTrav g (cpos g i + t)).count jj = 0 := by
            rw [List.count_eq_zero]
            intro hmem
            have := preTrav_ge g g.length (cpos g i + t) (by omega) jj hmem
            omega
          have hancf : ¬ Anc g (cpos g i + t) jj := fun hh => by
            have := anc_le env entry ID0 g hs jj hjl _ hh
            omega
          rw [hcnt, if_neg hancf]
      rw [List.map_eq_map_iff.mpr hcongr]
      have hsucc : cpos g (i + 1) = cpos g i + (nth g i).dependencies.length :=
        cpos_succ g i hil
      by_cases hanc : Anc g i jj
      · rw [if_pos hanc]
        obtain ⟨m, hmanc, hm1, hml, hmp, huniq⟩ :=
          anc_unique_child env entry ID0 g hs jj hjl i hanc hilt
        obtain ⟨_, _, hc1, hc2⟩ := parentOf_spec env entry ID0 g hs m hm1 hml
        rw [hmp] at hc1 hc2
        have ht0 : m - cpos g i < (nth g i).dependencies.length := by omega
        have hm_eq : cpos g i + (m - cpos g i) = m := by omega
        rw [sum_map_ite_one _ _ (m - cpos g i) ht0 (by rw [hm_eq]; exact hmanc) ?_]
        · simp [hieq]
        · intro t ht hPt
          have hk1 : 1 ≤ cpos g i + t := by
            have := cpos_pos g i
            omega
          have hk2 : cpos g i + t < g.length :=
            (shape_guard env entry ID0 g hs i hil t ht).2
          have hpk : parentOf g (cpos g i + t) = i :=
            parentOf_eq env entry ID0 g hs i (cpos g i + t) (by omega) (by omega) hk1 hk2
          have := huniq (cpos g i + t) hk1 hk2 hPt hpk
          omega
      · rw [if_neg hanc]
        rw [sum_map_ite_zero _ _ ?_]
        · simp [hieq]
        · intro t ht hPt
          have hk1 : 1 ≤ cpos g i + t := by
            have := cpos_pos g i
            omega
          have hk2 : cpos g i + t < g.length :=
            (shape_guard env entry ID0 g hs i hil t ht).2
          have hpk : parentOf g (cpos g i + t) = i :=
            parentOf_eq env entry ID0 g hs i (cpos g i + t) (by omega) (by omega) hk1 hk2
          have hup := anc_parentOf env entry ID0 g hs jj hjl (cpos g i + t) hPt hk1
          rw [hpk] at hup
          exact hanc hup

/-- C4 (amended): when no asset of the graph carries a duplicated dependency
string, the bundle run is lazy and demand-driven — `require(0)` with enough
fuel succeeds, every module body runs only in response to a `require` of its
identity (the log holds only identities of the graph), and each asset's
wrapped function body executes exactly once during the whole run. -/
theorem bundle_executes_each_module_once_of_nodup (env : Env) (entry : String)
    (fuel : Nat) (g : List Asset) (K' : Nat)
    (h : createGraph env entry fuel 0 = .ok (some (g, K')))
    (hnd : ∀ a ∈ g, a.dependencies.Nodup) (n0 : Nat) :
    ∃ rfuel st, requireRun (tableOf g) rfuel 0 { fresh := n0, log := [] } = some (n0, st) ∧
      (∀ a ∈ g, st.log.count a.id = 1) ∧ (∀ x ∈ st.log, x < g.length) := by
  obtain ⟨hs, _⟩ := createGraph_shape env entry fuel 0 g K' h
  have hnd' : ∀ j, j < g.length → (nth g j).dependencies.Nodup :=
    fun j hj => hnd _ (nth_mem g j hj)
  have hrun := requireRun_traverses env entry g hs hnd' g.length 0 hs.nonempty (by omega)
    { fresh := n0, log := [] }
  refine ⟨g.length,
    { fresh := ({ fresh := n0, log := [] } : LoaderState).fresh + (preTrav g 0).length,
      log := ({ fresh := n0, log := ([] : List Nat) } : LoaderState).log ++ preTrav g 0 },
    hrun, ?_, ?_⟩
  · intro a ha
    obtain ⟨j, hj, hja⟩ := mem_nth g a ha
    subst hja
    have hid := hs.ids j hj
    rw [hid]
    simp only [List.nil_append]
    have hcnt := preTrav_count env entry 0 g hs j 0 j (by omega) (by omega) hj hs.nonempty
    rw [if_pos (anc_zero env entry 0 g hs j hj)] at hcnt
    simpa using hcnt
  · intro x hx
    simp only [List.nil_append] at hx
    exact preTrav_lt g g.length 0 (by omega) hs.nonempty x hx

theorem bundle_executes_each_module_once_of_nodup_witness :
    ∃ rfuel st, requireRun (tableOf gA) rfuel 0 { fresh := 0, log := [] } = some (0, st) ∧
      (∀ a ∈ gA, st.log.count a.id = 1) ∧ (∀ x ∈ st.log, x < gA.length) :=
  bundle_executes_each_module_once_of_nodup envA "e" 10 gA 5 rfl (by decide) 0

/-! ### Claim C7: termination on acyclic dependency relations -/

theorem sizeBound_pos (env : Env) (n : Nat) (p : String) : 1 ≤ sizeBound env n p := by
  cases n <;> simp [sizeBound]

theorem sizeBound_mono (env : Env) :
    ∀ (m n : Nat) (p : String), m ≤ n → sizeBound env m p ≤ sizeBound env n p := by
  intro m
  induction m with
  | zero =>
    intro n p _
    rw [show sizeBound env 0 p = 1 from rfl]
    exact sizeBound_pos env n p
  | succ m ih =>
    intro n p h
    obtain ⟨n', rfl⟩ : ∃ n', n = n' + 1 := ⟨n - 1, by omega⟩
    simp only [sizeBound]
    have hsum : ((depsOfF env p).map
        (fun rel => sizeBound env m (env.join (env.dirname p) rel))).sum ≤
        ((depsOfF env p).map
        (fun rel => sizeBound env n' (env.join (env.dirname p) rel))).sum :=
      List.sum_le_sum (fun rel _ => ih n' _ (by omega))
    omega

theorem map_sum_range {α : Type} (d : α) (f : α → Nat) (l : List α) :
    (l.map f).sum = ((List.range l.length).map (fun t => f (l.getD t d))).sum := by
  induction l with
  | nil => simp
  | cons a rest ih =>
    rw [List.map_cons, List.sum_cons, List.length_cons, List.range_succ_eq_map,
      List.map_cons, List.sum_cons, List.map_map]
    simp only [List.getD_cons_zero]
    congr 1

theorem expandAll_success (env : Env) (dir : String) :
    ∀ (deps : List String) (mp0 : List (String × Nat)) (ch0 : List Asset) (K : Nat),
      (∀ rel ∈ deps, ∃ c d, env.read (env.join dir rel) = some c ∧
        env.parseDeps c = some d) →
      ∃ mp ch K2, expandAll env dir deps mp0 ch0 K = .ok (mp, ch, K2) := by
  intro deps
  induction deps with
  | nil => intro mp0 ch0 K _; exact ⟨mp0, ch0, K, rfl⟩
  | cons rel rest ih =>
    intro mp0 ch0 K hok
    obtain ⟨c, d, hc, hd⟩ := hok rel (by simp)
    have hca := createAsset_fields env (env.join dir rel) c d K hc hd
    simp only [expandAll, hca]
    exact ih _ _ _ (fun r hr => hok r (by simp [hr]))

theorem graphLoop_terminates (env : Env) (entry : String)
    (rank : String → Nat)
    (hread : ∀ p, Reach env entry p → ∃ c d, env.read p = some c ∧ env.parseDeps c = some d)
    (hrank : ∀ p, Reach env entry p → ∀ rel ∈ depsOfF env p,
      rank (env.join (env.dirname p) rel) < rank p) :
    ∀ (fuel : Nat) (done todo : List Asset) (K : Nat),
      (∀ a ∈ todo, Reach env entry a.filename ∧ a.dependencies = depsOfF env a.filename) →
      (todo.map (fun a => sizeBound env (rank a.filename) a.filename)).sum ≤ fuel →
      ∃ g K', graphLoop env fuel done todo K = .ok (some (g, K')) := by
  intro fuel
  induction fuel with
  | zero =>
    intro done todo K hinv hW
    cases todo with
    | nil => exact ⟨done, K, rfl⟩
    | cons a rest =>
      exfalso
      have := sizeBound_pos env (rank a.filename) a.filename
      simp only [List.map_cons, List.sum_cons] at hW
      omega
  | succ fuel ih =>
    intro done todo K hinv hW
    cases todo with
    | nil => exact ⟨done, K, rfl⟩
    | cons a rest =>
      obtain ⟨hreach, hdeps⟩ := hinv a (by simp)
      -- each dependency of `a` resolves to a readable, parseable file
      have hok : ∀ rel ∈ a.dependencies, ∃ c d,
          env.read (env.join (env.dirname a.filename) rel) = some c ∧
          env.parseDeps c = some d := by
        intro rel hrel
        rw [hdeps] at hrel
        exact hread _ (Relation.ReflTransGen.tail hreach ⟨rel, hrel, rfl⟩)
      obtain ⟨mp, ch, K2, hexp⟩ := expandAll_success env _ a.dependencies [] [] K hok
      obtain ⟨_, _, cs0, hch, hlen, hts⟩ :=
        expandAll_ok env _ a.dependencies [] [] K mp ch K2 hexp
      obtain rfl : ch = cs0 := by simpa using hch
      simp only [graphLoop, hexp]
      -- children are reachable and record their own parsed dependencies
      have hreach_c : ∀ t, t < ch.length →
          Reach env entry (nth ch t).filename ∧
          (nth ch t).dependencies = depsOfF env (nth ch t).filename := by
        intro t ht
        have ht' : t < a.dependencies.length := by omega
        obtain ⟨hid, hfile, hmapn, hwf⟩ := hts t ht'
        have hmemdep : a.dependencies.getD t "" ∈ a.dependencies := by
          have h1 : a.dependencies.getD t "" = a.dependencies[t] :=
            List.getD_eq_getElem a.dependencies "" ht'
          rw [h1]
          exact List.getElem_mem ht'
        have hstep : DepStep env a.filename (nth ch t).filename := by
          refine ⟨a.dependencies.getD t "", ?_, hfile.symm ▸ rfl⟩
          rw [← hdeps]
          exact hmemdep
        obtain ⟨c, hc, hd, _⟩ := hwf
        constructor
        · exact Relation.ReflTransGen.tail hreach hstep
        · simp [depsOfF, hc, hd]
      have hinv' : ∀ b ∈ rest ++ ch,
          Reach env entry b.filename ∧ b.dependencies = depsOfF env b.filename := by
        intro b hb
        rcases List.mem_append.mp hb with hb1 | hb2
        · exact hinv b (by simp [hb1])
        · obtain ⟨t, ht, htb⟩ := mem_nth ch b hb2
          rw [← htb]
          exact hreach_c t ht
      -- the measure decreases by at least one
      have hWc : (ch.map (fun b => sizeBound env (rank b.filename) b.filename)).sum + 1 ≤
          sizeBound env (rank a.filename) a.filename := by
        have hcs_sum : (ch.map (fun b => sizeBound env (rank b.filename) b.filename)).sum =
            ((List.range ch.length).map (fun t =>
              sizeBound env (rank (nth ch t).filename) (nth ch t).filename)).sum := by
          exact map_sum_range defaultAsset _ ch
        rcases Nat.eq_zero_or_pos (rank a.filename) with hr0 | hrpos
        · -- rank 0: no dependencies are possible
          have hdnil : depsOfF env a.filename = [] := by
            by_contra hne
            obtain ⟨rel, hrel⟩ := List.exists_mem_of_ne_nil _ hne
            have := hrank a.filename hreach rel hrel
            omega
          have : ch.length = 0 := by
            rw [hlen, hdeps, hdnil]
            rfl
          rw [List.length_eq_zero.mp this]
          have := sizeBound_pos env (rank a.filename) a.filename
          simpa using this
        · obtain ⟨r, hr⟩ : ∃ r, rank a.filename = r + 1 := ⟨rank a.filename - 1, by omega⟩
          have hsz : sizeBound env (rank a.filename) a.filename =
              1 + ((depsOfF env a.filename).map (fun rel =>
                sizeBound env r (env.join (env.dirname a.filename) rel))).sum := by
            rw [hr]
            rfl
          have hdep_sum : ((depsOfF env a.filename).map (fun rel =>
              sizeBound env r (env.join (env.dirname a.filename) rel))).sum =
              ((List.range (depsOfF env a.filename).length).map (fun t =>
                sizeBound env r (env.join (env.dirname a.filename)
                  ((depsOfF env a.filename).getD t "")))).sum :=
            map_sum_range "" _ _
          have hlen2 : ch.length = (depsOfF env a.filename).length := by
            rw [hlen, hdeps]
          have hterm : ∀ t ∈ List.range ch.length,
              (fun t => sizeBound env (rank (nth ch t).filename) (nth ch t).filename) t ≤
              (fun t => sizeBound env r (env.join (env.dirname a.filename)
                ((depsOfF env a.filename).getD t ""))) t := by
            intro t htr
            have ht := List.mem_range.mp htr
            have ht' : t < a.dependencies.length := by omega
            obtain ⟨_, hfile, _, _⟩ := hts t ht'
            have hmemdep : a.dependencies.getD t "" ∈ a.dependencies := by
              have h1 : a.dependencies.getD t "" = a.dependencies[t] :=
                List.getD_eq_getElem a.dependencies "" ht'
              rw [h1]
              exact List.getElem_mem ht'
            have hranklt : rank (nth ch t).filename < rank a.filename := by
              rw [hfile]
              apply hrank a.filename hreach
              rw [← hdeps]
              exact hmemdep
            have hrle : rank (nth ch t).filename ≤ r := by omega
            calc sizeBound env (rank (nth ch t).filename) (nth ch t).filename
                ≤ sizeBound env r (nth ch t).filename := sizeBound_mono env _ r _ hrle
              _ = sizeBound env r (env.join (env.dirname a.filename)
                  ((depsOfF env a.filename).getD t "")) := by rw [hfile, hdeps]
          have hsum_le := List.sum_le_sum hterm
          rw [hlen2] at hcs_sum hsum_le
          rw [hcs_sum, hsz, hdep_sum]
          omega
      have hW' : ((rest ++ ch).map
          (fun b => sizeBound env (rank b.filename) b.filename)).sum ≤ fuel := by
        rw [List.map_append, List.sum_append]
        simp only [List.map_cons, List.sum_cons] at hW
        omega
      exact ih (done ++ [{ a with mapping := mp }]) (rest ++ ch) K2 hinv' hW'

/-- C7: whenever the import-dependency relation reachable from the entry file
is acyclic — witnessed by a rank function strictly decreasing along every
edge of imports out of a reachable file (fan-out per file is finite since each
file's import list is a finite list) — and every reachable file is readable
and parseable, `createGraph` terminates by exhausting its worklist and
returns a graph; it visited each dependency edge exactly once, building
exactly one asset per edge beyond the entry (`N = 1 + Σ edges`). -/
theorem createGraph_terminates_acyclic (env : Env) (entry : String) (ID0 : Nat)
    (rank : String → Nat)
    (hread : ∀ p, Reach env entry p → ∃ c d, env.read p = some c ∧ env.parseDeps c = some d)
    (hrank : ∀ p, Reach env entry p → ∀ rel ∈ depsOfF env p,
      rank (env.join (env.dirname p) rel) < rank p) :
    ∃ fuel g K', createGraph env entry fuel ID0 = .ok (some (g, K')) ∧
      g.length = 1 + (g.map (fun a => a.dependencies.length)).sum := by
  obtain ⟨c, d, hc, hd⟩ := hread entry Relation.ReflTransGen.refl
  have hca := createAsset_fields env entry c d ID0 hc hd
  have hdeps : d = depsOfF env entry := by
    simp [depsOfF, hc, hd]
  obtain ⟨g, K', hloop⟩ := graphLoop_terminates env entry rank hread hrank
    (sizeBound env (rank entry) entry) []
    [{ id := ID0, filename := entry, dependencies := d,
       code := env.transform c, mapping := [] }] (ID0 + 1)
    (by
      intro b hb
      simp only [List.mem_singleton] at hb
      subst hb
      exact ⟨Relation.ReflTransGen.refl, hdeps⟩)
    (by simp)
  have hcg : createGraph env entry (sizeBound env (rank entry) entry) ID0 =
      .ok (some (g, K')) := by
    rw [createGraph, hca]
    exact hloop
  refine ⟨sizeBound env (rank entry) entry, g, K', hcg, ?_⟩
  obtain ⟨hs, _⟩ := createGraph_shape env entry _ ID0 g K' hcg
  have htot := hs.total
  rw [cpos, List.take_length] at htot
  exact htot

theorem createGraph_terminates_acyclic_witness :
    ∃ fuel g K', createGraph envAll "e" fuel 0 = .ok (some (g, K')) ∧
      g.length = 1 + (g.map (fun a => a.dependencies.length)).sum :=
  createGraph_terminates_acyclic envAll "e" 0 (fun _ => 0)
    (fun p _ => ⟨"C", [], rfl, rfl⟩)
    (fun p _ rel hrel => absurd hrel (by simp [depsOfF, envAll]))

end Minipack
